import Mathlib

/-!
Verification development for the snaptui/pytea terminal-UI runtime.

Shallow embedding of the repository's core modules:
  * pytea/strutil.py   — ANSI-aware text metrics (strip_ansi, visible_width,
                         pad_right, truncate, word_wrap, _split_words_ansi,
                         _hard_break)
  * pytea/keys.py      — byte-level key decoder (read_key,
                         _read_escape_sequence, _read_utf8)
  * snaptui/style.py   — immutable Style builder and its render pipeline
  * snaptui/renderer.py — frame-diffing Renderer
  * snaptui/program.py — event-loop Program (_process, _sync_subs, _render)

Strings are modelled as List Char; byte streams as List Nat.  Reading a byte
with a timeout is modelled by consuming from the head of a finite list, the
empty list standing for "no byte arrives before the timeout".
-/

namespace Snaptui

/-! ## Text metrics: the ANSI escape matcher (pytea/strutil.py `_ANSI_RE`)

The regex is
  \x1b\[[0-9;]*[A-Za-z] | \x1b\][^\x07]*\x07 | \x1b[()][AB012] | \x1b\[[\d;]*m
matched at a position by `re.match` semantics (the fourth alternative is
subsumed by the first).  `ansiLen xs` returns the length of the match at the
head of `xs`, if any. -/

def escChar : Char := '\x1b'

def belChar : Char := '\x07'

/-- Characters allowed in a CSI parameter section: digits and semicolon. -/
def isCsiParam (c : Char) : Bool :=
  (48 ≤ c.toNat && c.toNat ≤ 57) || c.toNat == 59

/-- ASCII letters A-Z and a-z, the CSI terminator class of the regex. -/
def isAlphaCh (c : Char) : Bool :=
  (65 ≤ c.toNat && c.toNat ≤ 90) || (97 ≤ c.toNat && c.toNat ≤ 122)

/-- Length matched by the regex tail [0-9;]*[A-Za-z] (greedy star, then one
letter; the classes are disjoint so no backtracking arises). -/
def csiTail : List Char → Option Nat
  | [] => none
  | c :: rest =>
    if isCsiParam c then (csiTail rest).map (· + 1)
    else if isAlphaCh c then some 1
    else none

/-- Length matched by the regex tail [^\x07]*\x07: everything up to and
including the first BEL. -/
def oscTail : List Char → Option Nat
  | [] => none
  | c :: rest =>
    if c = belChar then some 1 else (oscTail rest).map (· + 1)

/-- Length matched by the regex tail [AB012] after ESC ( or ESC ). -/
def charsetTail : List Char → Option Nat
  | [] => none
  | c :: _ =>
    if c == 'A' || c == 'B' || c == '0' || c == '1' || c == '2' then some 1
    else none

/-- Length of the ANSI escape-sequence match of `_ANSI_RE` at the head of the
string, if any.  Every alternative starts with ESC and is discriminated by the
second character. -/
def ansiLen : List Char → Option Nat
  | c :: d :: rest =>
    if c = escChar then
      if d = '[' then (csiTail rest).map (· + 2)
      else if d = ']' then (oscTail rest).map (· + 2)
      else if d = '(' || d = ')' then (charsetTail rest).map (· + 2)
      else none
    else none
  | _ => none

/-! ## strip_ansi and visible_width (pytea/strutil.py)

`_ANSI_RE.sub('', s)` scans left to right: at each position, if the regex
matches, the match is removed and scanning resumes after it; otherwise the
character is kept.  The scan is implemented with fuel (one unit per input
character suffices because every match is non-empty). -/

def stripGo : Nat → List Char → List Char
  | 0, _ => []
  | _ + 1, [] => []
  | fuel + 1, c :: rest =>
    match ansiLen (c :: rest) with
    | some n => stripGo fuel (List.drop n (c :: rest))
    | none => c :: stripGo fuel rest

/-- Remove all ANSI escape sequences from a string (strutil.strip_ansi). -/
def strip_ansi (s : List Char) : List Char := stripGo s.length s

/-- Combining-mark test: models `unicodedata.category(ch).startswith('M')`
over the principal combining-mark ranges of Unicode. -/
def isCombiningCh (c : Char) : Bool :=
  (0x0300 ≤ c.toNat && c.toNat ≤ 0x036F) ||
  (0x0483 ≤ c.toNat && c.toNat ≤ 0x0489) ||
  (0x0591 ≤ c.toNat && c.toNat ≤ 0x05BD) ||
  (0x0610 ≤ c.toNat && c.toNat ≤ 0x061A) ||
  (0x064B ≤ c.toNat && c.toNat ≤ 0x065F) ||
  (0x0E31 == c.toNat) ||
  (0x0E34 ≤ c.toNat && c.toNat ≤ 0x0E3A) ||
  (0x1AB0 ≤ c.toNat && c.toNat ≤ 0x1AFF) ||
  (0x1DC0 ≤ c.toNat && c.toNat ≤ 0x1DFF) ||
  (0x20D0 ≤ c.toNat && c.toNat ≤ 0x20FF) ||
  (0xFE20 ≤ c.toNat && c.toNat ≤ 0xFE2F)

/-- East-Asian Wide / Fullwidth test: models
`unicodedata.east_asian_width(ch) in ('F', 'W')` over the principal W/F
ranges of Unicode. -/
def isWideCh (c : Char) : Bool :=
  (0x1100 ≤ c.toNat && c.toNat ≤ 0x115F) ||
  (0x2329 ≤ c.toNat && c.toNat ≤ 0x232A) ||
  (0x2E80 ≤ c.toNat && c.toNat ≤ 0x303E) ||
  (0x3041 ≤ c.toNat && c.toNat ≤ 0x33FF) ||
  (0x3400 ≤ c.toNat && c.toNat ≤ 0x4DBF) ||
  (0x4E00 ≤ c.toNat && c.toNat ≤ 0x9FFF) ||
  (0xA000 ≤ c.toNat && c.toNat ≤ 0xA4CF) ||
  (0xA960 ≤ c.toNat && c.toNat ≤ 0xA97F) ||
  (0xAC00 ≤ c.toNat && c.toNat ≤ 0xD7A3) ||
  (0xF900 ≤ c.toNat && c.toNat ≤ 0xFAFF) ||
  (0xFE30 ≤ c.toNat && c.toNat ≤ 0xFE52) ||
  (0xFE54 ≤ c.toNat && c.toNat ≤ 0xFE66) ||
  (0xFE68 ≤ c.toNat && c.toNat ≤ 0xFE6B) ||
  (0xFF00 ≤ c.toNat && c.toNat ≤ 0xFF60) ||
  (0xFFE0 ≤ c.toNat && c.toNat ≤ 0xFFE6) ||
  (0x1F300 ≤ c.toNat && c.toNat ≤ 0x1F64F) ||
  (0x20000 ≤ c.toNat && c.toNat ≤ 0x2FFFD) ||
  (0x30000 ≤ c.toNat && c.toNat ≤ 0x3FFFD)

/-- strutil._char_width: 0 for combining marks, 2 for East-Asian wide or
fullwidth characters, 1 otherwise. -/
def char_width (c : Char) : Nat :=
  if isCombiningCh c then 0 else if isWideCh c then 2 else 1

/-- strutil.visible_width: total character width after stripping ANSI
escapes. -/
def visible_width (s : List Char) : Nat :=
  List.foldr (fun c acc => char_width c + acc) 0 (strip_ansi s)

/-- strutil.pad_right: append spaces until the visible width reaches `width`;
no-op when already at least `width`. -/
def pad_right (s : List Char) (width : Int) : List Char :=
  if (visible_width s : Int) ≥ width then s
  else s ++ List.replicate (width - visible_width s).toNat ' '

/-- Loop of strutil.truncate: walk the string, passing escape sequences
through uncounted, accumulating the visible width of plain characters, and
stop (dropping the rest) before a character would push the accumulated width
past `width`. -/
def truncGo : Nat → Int → Nat → List Char → List Char
  | 0, _, _, _ => []
  | _ + 1, _, _, [] => []
  | fuel + 1, width, cur, c :: rest =>
    match ansiLen (c :: rest) with
    | some n =>
      List.take n (c :: rest) ++ truncGo fuel width cur (List.drop n (c :: rest))
    | none =>
      if (cur + char_width c : Int) > width then []
      else c :: truncGo fuel width (cur + char_width c) rest

/-- strutil.truncate: truncate to visible width `width`, preserving ANSI
escape sequences; returns the empty string when `width ≤ 0`. -/
def truncate (s : List Char) (width : Int) : List Char :=
  if width ≤ 0 then [] else truncGo s.length width 0 s

/-- Python str.split on a single newline: always at least one piece, empty
string yields one empty piece. -/
def splitNl : List Char → List (List Char)
  | [] => [[]]
  | c :: rest =>
    if c = '\n' then [] :: splitNl rest
    else
      match splitNl rest with
      | h :: t => (c :: h) :: t
      | [] => [[c]]

/-- Python str.join with a newline separator. -/
def joinNl : List (List Char) → List Char
  | [] => []
  | [l] => l
  | l :: ls => l ++ '\n' :: joinNl ls

/-! ## word_wrap (pytea/strutil.py) -/

/-- The literal full-reset sequence that clears the tracked styling state. -/
def resetSeq : List Char := ['\x1b', '[', '0', 'm']

/-- Loop of re.finditer over _ANSI_RE: the non-overlapping matches found in a
left-to-right scan. -/
def seqsGo : Nat → List Char → List (List Char)
  | 0, _ => []
  | _ + 1, [] => []
  | fuel + 1, c :: rest =>
    match ansiLen (c :: rest) with
    | some n => List.take n (c :: rest) :: seqsGo fuel (List.drop n (c :: rest))
    | none => seqsGo fuel rest

/-- All ANSI escape-sequence matches inside a string, in order. -/
def ansi_seqs (s : List Char) : List (List Char) := seqsGo s.length s

/-- Fold word_wrap performs on active_ansi for one word: a full reset clears
the tracked list, any other sequence is appended. -/
def updateActive (active : List (List Char)) (word : List Char) :
    List (List Char) :=
  (ansi_seqs word).foldl
    (fun a seq => if seq = resetSeq then [] else a ++ [seq]) active

/-- Loop of strutil._split_words_ansi: accumulate characters (with escape
sequences attached); after a space whose following character (peeking past at
most one escape sequence) is not a space, flush the accumulated token. -/
def swGo : Nat → List Char → List Char → List (List Char)
  | 0, cur, _ => if cur.isEmpty then [] else [cur]
  | _ + 1, cur, [] => if cur.isEmpty then [] else [cur]
  | fuel + 1, cur, c :: rest =>
    match ansiLen (c :: rest) with
    | some n => swGo fuel (cur ++ List.take n (c :: rest)) (List.drop n (c :: rest))
    | none =>
      if c = ' ' then
        match rest with
        | [] => swGo fuel (cur ++ [' ']) []
        | r1 :: rrest =>
          let nextCh :=
            match ansiLen (r1 :: rrest) with
            | some m =>
              match List.drop m (r1 :: rrest) with
              | d :: _ => d
              | [] => r1
            | none => r1
          if nextCh ≠ ' ' then (cur ++ [' ']) :: swGo fuel [] rest
          else swGo fuel (cur ++ [' ']) rest
      else swGo fuel (cur ++ [c]) rest

/-- strutil._split_words_ansi. -/
def split_words_ansi (s : List Char) : List (List Char) := swGo s.length [] s

/-- Loop of strutil._hard_break: flush the current piece whenever the next
plain character would exceed `width` and the piece is nonempty. -/
def hbGo : Nat → Int → List Char → Nat → List Char → List (List Char)
  | 0, _, cur, _, _ => if cur.isEmpty then [] else [cur]
  | _ + 1, _, cur, _, [] => if cur.isEmpty then [] else [cur]
  | fuel + 1, width, cur, curw, c :: rest =>
    match ansiLen (c :: rest) with
    | some n =>
      hbGo fuel width (cur ++ List.take n (c :: rest)) curw (List.drop n (c :: rest))
    | none =>
      if (curw + char_width c : Int) > width && !cur.isEmpty then
        cur :: hbGo fuel width [c] (char_width c) rest
      else hbGo fuel width (cur ++ [c]) (curw + char_width c) rest

/-- strutil._hard_break: break a single over-wide word into pieces. -/
def hard_break (word : List Char) (width : Int) : List (List Char) :=
  hbGo word.length width [] 0 word

/-- Python str.strip whitespace class (ASCII portion). -/
def isPySpace (c : Char) : Bool :=
  c == ' ' || c == '\t' || c == '\n' || c == '\x0b' || c == '\x0c' || c == '\r'

/-- Word-wrap line state: lines already emitted, the current output line (as
its concatenated pieces), its tracked visible width, and the active styling
sequences seen so far. -/
structure WwState where
  wrapped : List (List Char)
  cl : List Char
  cw : Nat
  active : List (List Char)

/-- Pieces after the first in word_wrap's hard-break loop: flush the current
line, restart it from the joined active styling, append the piece. -/
def pieceFold (aj : List Char) :
    List (List Char) → List Char → List (List Char) →
    List (List Char) × List Char
  | [], cl, w => (w, cl)
  | p :: ps, cl, w => pieceFold aj ps (aj ++ p) (w ++ [cl])

/-- Full hard-break piece loop of word_wrap (first piece joins the current
line without a flush). -/
def runPieces (aj : List Char) (pieces : List (List Char)) (cl : List Char)
    (w : List (List Char)) : List (List Char) × List Char :=
  match pieces with
  | [] => (w, cl)
  | p :: ps => pieceFold aj ps (cl ++ p) w

/-- Shared hard-break snippet of word_wrap: run the piece loop, then drop a
trailing whitespace-only piece; returns (wrapped, current line, its width). -/
def wwHard (width : Int) (aj : List Char) (w : List (List Char))
    (cl : List Char) (word : List Char) :
    List (List Char) × List Char × Nat :=
  let pieces := hard_break word width
  let res := runPieces aj pieces cl w
  match pieces.getLast? with
  | none => (res.1, res.2, 0)
  | some lastP =>
    if (strip_ansi lastP).all isPySpace then (res.1, aj, 0)
    else (res.1, res.2, visible_width lastP)

/-- One iteration of word_wrap's word loop. -/
def wwStep (width : Int) (st : WwState) (word : List Char) : WwState :=
  let ww := visible_width word
  let aj := st.active.flatten
  if st.cw = 0 then
    let r :=
      if (ww : Int) > width then wwHard width aj st.wrapped st.cl word
      else (st.wrapped, st.cl ++ word, ww)
    { wrapped := r.1
      cl := r.2.1
      cw := r.2.2
      active := updateActive st.active word }
  else if (st.cw + ww : Int) ≤ width then
    { st with
      cl := st.cl ++ word
      cw := st.cw + ww
      active := updateActive st.active word }
  else
    let w1 := st.wrapped ++ [st.cl]
    if (ww : Int) > width then
      let r := wwHard width aj w1 aj word
      { wrapped := r.1
        cl := r.2.1
        cw := r.2.2
        active := updateActive st.active word }
    else
      let stripped := word.dropWhile (· = ' ')
      { wrapped := w1
        cl := aj ++ stripped
        cw := visible_width stripped
        active := updateActive st.active word }

/-- word_wrap applied to one newline-free line: a line that already fits is
kept; otherwise the word loop runs and the final current line, if any, is
emitted. -/
def word_wrap_line (width : Int) (line : List Char) : List (List Char) :=
  if (visible_width line : Int) ≤ width then [line]
  else
    let st := (split_words_ansi line).foldl (wwStep width) ⟨[], [], 0, []⟩
    st.wrapped ++ (if st.cl.isEmpty then [] else [st.cl])

/-- strutil.word_wrap: preserves explicit line breaks, greedily packs words,
hard-breaks over-wide words; returns `s` unchanged when `width ≤ 0`. -/
def word_wrap (s : List Char) (width : Int) : List Char :=
  if width ≤ 0 then s
  else joinNl (((splitNl s).map (word_wrap_line width)).flatten)

/-! ## Key decoder (pytea/keys.py)

Bytes are Nat values below 256; the available input is a finite list whose
exhaustion models "no further byte arrives before the timeout". -/

/-- A key press event (keys.KeyMsg): symbolic name plus optional literal
character. -/
structure KeyMsg where
  key : String
  char : String := ""
deriving DecidableEq, Repr

/-- keys.CTRL_MAP: direct control-byte table. -/
def ctrlName : Nat → Option String
  | 0 => some "ctrl+space"
  | 1 => some "ctrl+a"
  | 2 => some "ctrl+b"
  | 3 => some "ctrl+c"
  | 4 => some "ctrl+d"
  | 5 => some "ctrl+e"
  | 6 => some "ctrl+f"
  | 7 => some "ctrl+g"
  | 8 => some "backspace"
  | 9 => some "tab"
  | 10 => some "ctrl+j"
  | 11 => some "ctrl+k"
  | 12 => some "ctrl+l"
  | 13 => some "enter"
  | 14 => some "ctrl+n"
  | 15 => some "ctrl+o"
  | 16 => some "ctrl+p"
  | 17 => some "ctrl+q"
  | 18 => some "ctrl+r"
  | 19 => some "ctrl+s"
  | 20 => some "ctrl+t"
  | 21 => some "ctrl+u"
  | 22 => some "ctrl+v"
  | 23 => some "ctrl+w"
  | 24 => some "ctrl+x"
  | 25 => some "ctrl+y"
  | 26 => some "ctrl+z"
  | 127 => some "backspace"
  | _ => none

/-- Byte string of an ASCII escape-sequence literal. -/
def bstr (s : String) : List Nat := s.toList.map Char.toNat

/-- keys.SEQUENCES: the escape-sequence lookup table. -/
def seqTable : List (List Nat × KeyMsg) :=
  [ (bstr "\x1b[A", ⟨"up", ""⟩)
  , (bstr "\x1b[B", ⟨"down", ""⟩)
  , (bstr "\x1b[C", ⟨"right", ""⟩)
  , (bstr "\x1b[D", ⟨"left", ""⟩)
  , (bstr "\x1bOA", ⟨"up", ""⟩)
  , (bstr "\x1bOB", ⟨"down", ""⟩)
  , (bstr "\x1bOC", ⟨"right", ""⟩)
  , (bstr "\x1bOD", ⟨"left", ""⟩)
  , (bstr "\x1b[H", ⟨"home", ""⟩)
  , (bstr "\x1b[F", ⟨"end", ""⟩)
  , (bstr "\x1bOH", ⟨"home", ""⟩)
  , (bstr "\x1bOF", ⟨"end", ""⟩)
  , (bstr "\x1b[1~", ⟨"home", ""⟩)
  , (bstr "\x1b[4~", ⟨"end", ""⟩)
  , (bstr "\x1b[2~", ⟨"insert", ""⟩)
  , (bstr "\x1b[3~", ⟨"delete", ""⟩)
  , (bstr "\x1b[5~", ⟨"pgup", ""⟩)
  , (bstr "\x1b[6~", ⟨"pgdown", ""⟩)
  , (bstr "\x1bOP", ⟨"f1", ""⟩)
  , (bstr "\x1bOQ", ⟨"f2", ""⟩)
  , (bstr "\x1bOR", ⟨"f3", ""⟩)
  , (bstr "\x1bOS", ⟨"f4", ""⟩)
  , (bstr "\x1b[15~", ⟨"f5", ""⟩)
  , (bstr "\x1b[17~", ⟨"f6", ""⟩)
  , (bstr "\x1b[18~", ⟨"f7", ""⟩)
  , (bstr "\x1b[19~", ⟨"f8", ""⟩)
  , (bstr "\x1b[20~", ⟨"f9", ""⟩)
  , (bstr "\x1b[21~", ⟨"f10", ""⟩)
  , (bstr "\x1b[23~", ⟨"f11", ""⟩)
  , (bstr "\x1b[24~", ⟨"f12", ""⟩)
  , (bstr "\x1b[Z", ⟨"shift+tab", ""⟩)
  , (bstr "\x1b[1;5A", ⟨"ctrl+up", ""⟩)
  , (bstr "\x1b[1;5B", ⟨"ctrl+down", ""⟩)
  , (bstr "\x1b[1;5C", ⟨"ctrl+right", ""⟩)
  , (bstr "\x1b[1;5D", ⟨"ctrl+left", ""⟩)
  , (bstr "\x1b[1;2A", ⟨"shift+up", ""⟩)
  , (bstr "\x1b[1;2B", ⟨"shift+down", ""⟩)
  , (bstr "\x1b[1;2C", ⟨"shift+right", ""⟩)
  , (bstr "\x1b[1;2D", ⟨"shift+left", ""⟩)
  , (bstr "\x1b[1;3A", ⟨"alt+up", ""⟩)
  , (bstr "\x1b[1;3B", ⟨"alt+down", ""⟩)
  , (bstr "\x1b[1;3C", ⟨"alt+right", ""⟩)
  , (bstr "\x1b[1;3D", ⟨"alt+left", ""⟩) ]

/-- Dictionary lookup in keys.SEQUENCES. -/
def seqLookup (bs : List Nat) : Option KeyMsg :=
  (seqTable.find? (fun e => e.1 == bs)).map (·.2)

/-- Lowercase hex digit. -/
def hexDigit (n : Nat) : Char :=
  if n < 10 then Char.ofNat (48 + n) else Char.ofNat (87 + n)

/-- Python repr of one byte inside a bytes literal with quote `q`. -/
def byteReprChars (q : Nat) (b : Nat) : List Char :=
  if b = 92 then ['\\', '\\']
  else if b = q then ['\\', Char.ofNat q]
  else if b = 9 then ['\\', 't']
  else if b = 10 then ['\\', 'n']
  else if b = 13 then ['\\', 'r']
  else if 32 ≤ b && b ≤ 126 then [Char.ofNat b]
  else ['\\', 'x', hexDigit (b / 16), hexDigit (b % 16)]

/-- Python repr of a bytes object (as in f-string {buf!r}): single quotes
unless the bytes contain a single quote and no double quote. -/
def pyBytesRepr (bs : List Nat) : String :=
  let q : Nat := if bs.contains 39 && !(bs.contains 34) then 34 else 39
  let body := (bs.map (byteReprChars q)).flatten
  ⟨'b' :: Char.ofNat q :: body ++ [Char.ofNat q]⟩

/-- Decimal digit characters of a Nat (for f-string interpolation). -/
def natCharsGo : Nat → Nat → List Char
  | 0, _ => []
  | fuel + 1, n =>
    if n < 10 then [Char.ofNat (48 + n)]
    else natCharsGo fuel (n / 10) ++ [Char.ofNat (48 + n % 10)]

/-- Decimal string of a Nat. -/
def natStr (n : Nat) : String := ⟨natCharsGo (n + 1) n⟩

/-- The "unknown" event carrying a Python bytes repr. -/
def unknownOf (buf : List Nat) : KeyMsg :=
  ⟨"unknown(" ++ pyBytesRepr buf ++ ")", ""⟩

/-- End-of-loop handling of keys._read_escape_sequence: final table check,
then bare ESC, then alt+key, otherwise unknown. -/
def escFinalize (buf : List Nat) : KeyMsg :=
  match seqLookup buf with
  | some k => k
  | none =>
    if buf.length = 1 then ⟨"esc", ""⟩
    else if buf.length = 2 then
      match buf.get? 1 with
      | some second =>
        if 32 ≤ second && second < 127 then
          let ch := Char.ofNat second
          ⟨"alt+" ++ String.singleton ch, String.singleton ch⟩
        else
          match ctrlName second with
          | some nm => ⟨"alt+" ++ nm, ""⟩
          | none => unknownOf buf
      | none => unknownOf buf
    else unknownOf buf

/-- Loop body of keys._read_escape_sequence: read up to 7 further bytes, each
with a short timeout (stream exhaustion = timeout); recognize table entries,
and terminate CSI (ESC [ …) and SS3 (ESC O …) sequences at a byte in
0x40–0x7E. -/
def escLoop : Nat → List Nat → List Nat → KeyMsg
  | 0, buf, _ => escFinalize buf
  | _ + 1, buf, [] => escFinalize buf
  | iters + 1, buf, b :: rest =>
    let buf' := buf ++ [b]
    match seqLookup buf' with
    | some k => k
    | none =>
      let last := buf'.getLast?.getD 0
      if 3 ≤ buf'.length && buf'.get? 1 == some 91 && (64 ≤ last && last ≤ 126)
      then
        match seqLookup buf' with
        | some k => k
        | none => unknownOf buf'
      else if 3 ≤ buf'.length && buf'.get? 1 == some 79 &&
          (64 ≤ last && last ≤ 126) then
        match seqLookup buf' with
        | some k => k
        | none => unknownOf buf'
      else escLoop iters buf' rest

/-- keys._read_escape_sequence after the initial ESC byte was read. -/
def read_escape_sequence (stream : List Nat) : KeyMsg :=
  escLoop 7 [27] stream

/-- The Python exceptions that keys._read_utf8 can raise and read_key
catches. -/
inductive PyExc where
  | valueError
  | unicodeDecodeError
deriving DecidableEq

/-- Strict UTF-8 continuation byte test. -/
def isContByte (b : Nat) : Bool := b &&& 0xC0 == 0x80

/-- Python bytes.decode("utf-8") on a short byte run: strict validation of
continuation bytes, overlong forms, surrogates and the 0x10FFFF cap. -/
def decodeUtf8 : List Nat → Except PyExc Char
  | [b0, b1] =>
    if isContByte b1 then
      let cp := ((b0 &&& 0x1F) <<< 6) ||| (b1 &&& 0x3F)
      if 0x80 ≤ cp then .ok (Char.ofNat cp) else .error .unicodeDecodeError
    else .error .unicodeDecodeError
  | [b0, b1, b2] =>
    if isContByte b1 && isContByte b2 then
      let cp := ((b0 &&& 0x0F) <<< 12) ||| ((b1 &&& 0x3F) <<< 6) ||| (b2 &&& 0x3F)
      if 0x800 ≤ cp && !(0xD800 ≤ cp && cp ≤ 0xDFFF) then .ok (Char.ofNat cp)
      else .error .unicodeDecodeError
    else .error .unicodeDecodeError
  | [b0, b1, b2, b3] =>
    if isContByte b1 && isContByte b2 && isContByte b3 then
      let cp := ((b0 &&& 0x07) <<< 18) ||| ((b1 &&& 0x3F) <<< 12) |||
        ((b2 &&& 0x3F) <<< 6) ||| (b3 &&& 0x3F)
      if 0x10000 ≤ cp && cp ≤ 0x10FFFF then .ok (Char.ofNat cp)
      else .error .unicodeDecodeError
    else .error .unicodeDecodeError
  | _ => .error .unicodeDecodeError

/-- keys._read_utf8: the leading byte's high bits determine how many
continuation bytes to read; a short read raises ValueError, an invalid lead
byte raises ValueError, and strict decoding failure raises
UnicodeDecodeError. -/
def read_utf8 (first : Nat) (stream : List Nat) : Except PyExc Char :=
  if first < 0x80 then .ok (Char.ofNat first)
  else if first &&& 0xE0 == 0xC0 then
    if stream.length < 1 then .error .valueError
    else decodeUtf8 (first :: stream.take 1)
  else if first &&& 0xF0 == 0xE0 then
    if stream.length < 2 then .error .valueError
    else decodeUtf8 (first :: stream.take 2)
  else if first &&& 0xF8 == 0xF0 then
    if stream.length < 3 then .error .valueError
    else decodeUtf8 (first :: stream.take 3)
  else .error .valueError

/-- The exception classes named by read_key's except clause
(UnicodeDecodeError, ValueError). -/
def pyCaught : PyExc → Bool
  | .valueError => true
  | .unicodeDecodeError => true

/-- keys.read_key: one key event from the byte stream.  A `.error` result
would model an exception propagating out of read_key; `.ok none` models the
select timeout / empty read. -/
def read_key (stream : List Nat) : Except PyExc (Option KeyMsg) :=
  match stream with
  | [] => .ok none
  | b :: rest =>
    if b = 27 then .ok (some (read_escape_sequence rest))
    else
      match ctrlName b with
      | some nm => .ok (some ⟨nm, ""⟩)
      | none =>
        match read_utf8 b rest with
        | .ok ch =>
          if ch = ' ' then .ok (some ⟨"space", " "⟩)
          else .ok (some ⟨String.singleton ch, String.singleton ch⟩)
        | .error e =>
          if pyCaught e then .ok (some ⟨"unknown(" ++ natStr b ++ ")", ""⟩)
          else .error e

/-! ## Diff renderer (snaptui/renderer.py)

Terminal writes are modelled as a token stream; a token is one of the escape
sequences the renderer emits, a cursor-advance, or a line's content. -/

inductive OutTok where
  | cursorHome
  | crlf
  | text (s : List Char)
  | eraseLineRight
  | eraseScreenBelow
  | syncBegin
  | syncEnd
deriving DecidableEq

/-- Renderer state: the previous frame's lines and the forced-repaint flag. -/
structure RState where
  prevLines : List (List Char)
  repaintFlag : Bool
deriving DecidableEq

/-- Renderer.repaint(): force a full repaint on the next render. -/
def repaint (st : RState) : RState := { st with repaintFlag := true }

/-- One iteration of Renderer.render's line loop at index `i`: an unchanged
line (no pending repaint) only advances the cursor; otherwise the
width-truncated content plus erase-to-end-of-line is written. -/
def renderBody (rp : Bool) (width : Int) (maxL : Nat)
    (newLs oldLs : List (List Char)) (i : Nat) : List OutTok :=
  let new := newLs.getD i []
  if rp = false ∧ oldLs.get? i = some new then
    if i < maxL - 1 then [.crlf] else []
  else
    [.text (truncate new width), .eraseLineRight] ++
      (if i < maxL - 1 then [.crlf] else [])

/-- The line list of one frame: the output split into lines and truncated to
the terminal height. -/
def frameLines (output : List Char) (height : Nat) : List (List Char) :=
  let newLines0 := splitNl output
  if newLines0.length > height then newLines0.take height else newLines0

/-- Renderer.render: split into lines, truncate to terminal height, home the
cursor, walk line indices below the height bound, erase leftover lines when
the frame shrank, and wrap everything in a synchronized-update bracket.
Returns the new renderer state (repaint flag auto-cleared, new frame
retained) and the emitted token stream. -/
def render (st : RState) (output : List Char) (width : Int) (height : Nat) :
    RState × List OutTok :=
  let newLines := frameLines output height
  let maxL := max newLines.length st.prevLines.length
  let body :=
    ((List.range (min maxL height)).map
      (renderBody st.repaintFlag width maxL newLines st.prevLines)).flatten
  let toks := [OutTok.syncBegin, OutTok.cursorHome] ++ body ++
    (if st.prevLines.length > newLines.length then [OutTok.eraseScreenBelow]
     else []) ++ [OutTok.syncEnd]
  ({ prevLines := newLines, repaintFlag := false }, toks)

/-- The line contents written in a token stream, in order. -/
def textsOf (toks : List OutTok) : List (List Char) :=
  toks.filterMap (fun t =>
    match t with
    | OutTok.text s => some s
    | _ => none)

/-! ## Event loop (snaptui/program.py)

Messages are a closed model of the isinstance dispatch in Program._process;
application messages travel through the `user` case.  Commands are tracked by
a scheduling effect (they run on another thread and only matter here through
whether one was scheduled).  Subscription start/stop callables are tracked by
their keys. -/

inductive Msg where
  | quit
  | key (key : String) (char : String)
  | windowSize (width height : Nat)
  | user (tag : Nat)
deriving DecidableEq

/-- Externally visible actions of one Program._process call, in order. -/
inductive Eff where
  | suspend
  | modelUpdated
  | cmdScheduled
  | subStopped (key : String)
  | subStarted (key : String)
  | rendered
deriving DecidableEq

/-- The loop body of Program._sync_subs's start phase: a declared key not yet
active is started and retained (appended); an already-active key is left
alone. -/
def startStep (acc : List String × List Eff) (k : String) :
    List String × List Eff :=
  if acc.1.contains k then acc
  else (acc.1 ++ [k], acc.2 ++ [Eff.subStarted k])

/-- Program._sync_subs on the key sets: stop (in retention order) every
active subscription whose key is no longer declared, then start every
declared key that is not active.  Returns the new active key list and the
stop/start calls in the order they are made. -/
def sync_subs (active desired : List String) : List String × List Eff :=
  let stopped := active.filter (fun k => !desired.contains k)
  let kept := active.filter (fun k => desired.contains k)
  let startRes := desired.foldl startStep (kept, [])
  (startRes.1, stopped.map Eff.subStopped ++ startRes.2)

/-- Repeated reconciliations against a sequence of declared key lists,
collecting all stop/start events. -/
def sync_subs_run (active : List String) :
    List (List String) → List String × List Eff
  | [] => (active, [])
  | d :: ds =>
    let r := sync_subs active d
    let rest := sync_subs_run r.1 ds
    (rest.1, r.2 ++ rest.2)

/-- The application-model interface Program consumes (model protocol of
snaptui/model.py): update returns the new model and whether a command was
returned; subscriptions is optional (hasattr check). -/
structure ModelOps (M : Type) where
  update : M → Msg → M × Bool
  view : M → List Char
  subscriptions : Option (M → List String)

/-- Program state touched by _process: the stored model, the quit flag, the
stored dimensions, the renderer state and the active subscription keys. -/
structure PState (M : Type) where
  model : M
  quitFlag : Bool
  width : Nat
  height : Nat
  renderer : RState
  activeSubs : List String

/-- Program._process: a quit message sets the quit flag and returns at once;
ctrl+z routes to the OS suspend mechanism; a resize updates the stored size
and marks a repaint before reaching the model; otherwise the model's update
runs, the stored model is replaced, a returned command is scheduled,
subscriptions are reconciled, and a render occurs.  (The render step is
modelled by the renderer's semantics; the cursor-keyword mismatch of
Program._render against Renderer.render is recorded separately.) -/
def process {M : Type} (ops : ModelOps M) (st : PState M) (msg : Msg) :
    PState M × List Eff :=
  if msg = Msg.quit then ({ st with quitFlag := true }, [])
  else
    match msg with
    | Msg.key "ctrl+z" _ => (st, [Eff.suspend])
    | _ =>
      let st1 :=
        match msg with
        | Msg.windowSize w h =>
          { st with
            width := w
            height := h
            renderer := repaint st.renderer }
        | _ => st
      let upd := ops.update st1.model msg
      let cmdEffs := if upd.2 then [Eff.cmdScheduled] else []
      let subRes :=
        match ops.subscriptions with
        | none => (st1.activeSubs, ([] : List Eff))
        | some f => sync_subs st1.activeSubs (f upd.1)
      let rend := render st1.renderer (ops.view upd.1) (st1.width : Int)
        st1.height
      ({ model := upd.1
         quitFlag := st1.quitFlag
         width := st1.width
         height := st1.height
         renderer := rend.1
         activeSubs := subRes.1 },
       [Eff.modelUpdated] ++ cmdEffs ++ subRes.2 ++ [Eff.rendered])

/-! ## Call compatibility of Program._render with Renderer.render
(snaptui/program.py line 204 against snaptui/renderer.py line 26).

Renderer.render's positional-or-keyword parameters after self, and whether it
declares a **kwargs catch-all; Program._render's keyword arguments. -/

def renderer_render_params : List String := ["output", "width", "height"]

def renderer_render_has_kwargs : Bool := false

/-- Whether Renderer.render's signature accepts a given keyword argument. -/
def renderer_accepts_keyword (kw : String) : Bool :=
  renderer_render_has_kwargs || renderer_render_params.contains kw

/-- The keyword arguments Program._render passes to Renderer.render. -/
def program_render_keywords : List String := ["cursor"]

/-- Whether the call in Program._render binds against Renderer.render's
signature (a false value means Python raises TypeError at the call). -/
def program_render_call_ok : Bool :=
  program_render_keywords.all renderer_accepts_keyword

/-! ## Style engine (snaptui/style.py)

Glyphs of a Border are Python strings (List Char here); colors are stored as
already-parsed (r,g,b) triples — `_hex_to_rgb` of a well-formed "#RRGGBB"
argument — since render only ever consumes the parsed channels.  Numeric
attributes are Python ints (Int); the alignment fraction is exact (Rat). -/

structure Border where
  top_left : List Char
  top_right : List Char
  bottom_left : List Char
  bottom_right : List Char
  horizontal : List Char
  vertical : List Char
deriving DecidableEq

def ROUNDED_BORDER : Border := ⟨['╭'], ['╮'], ['╰'], ['╯'], ['─'], ['│']⟩

def NORMAL_BORDER : Border := ⟨['┌'], ['┐'], ['└'], ['┘'], ['─'], ['│']⟩

def DOUBLE_BORDER : Border := ⟨['╔'], ['╗'], ['╚'], ['╝'], ['═'], ['║']⟩

def THICK_BORDER : Border := ⟨['┏'], ['┓'], ['┗'], ['┛'], ['━'], ['┃']⟩

def HIDDEN_BORDER : Border := ⟨[' '], [' '], [' '], [' '], [' '], [' ']⟩

/-- Immutable style descriptor (the slots of style.Style; trailing
underscores mirror the Python single-underscore privates). -/
structure Style where
  fg_color_ : Option (Nat × Nat × Nat)
  bg_color_ : Option (Nat × Nat × Nat)
  bold_ : Bool
  dim_ : Bool
  italic_ : Bool
  underline_ : Bool
  reverse_ : Bool
  strikethrough_ : Bool
  padding_top_ : Int
  padding_right_ : Int
  padding_bottom_ : Int
  padding_left_ : Int
  margin_top_ : Int
  margin_right_ : Int
  margin_bottom_ : Int
  margin_left_ : Int
  width_ : Int
  max_width_ : Int
  height_ : Int
  max_height_ : Int
  border_ : Option Border
  border_fg_color_ : Option (Nat × Nat × Nat)
  border_top_ : Bool
  border_right_ : Bool
  border_bottom_ : Bool
  border_left_ : Bool
  align_ : Rat

/-- Style(): the defaults of Style.__init__. -/
def emptyStyle : Style :=
  { fg_color_ := none
    bg_color_ := none
    bold_ := false
    dim_ := false
    italic_ := false
    underline_ := false
    reverse_ := false
    strikethrough_ := false
    padding_top_ := 0
    padding_right_ := 0
    padding_bottom_ := 0
    padding_left_ := 0
    margin_top_ := 0
    margin_right_ := 0
    margin_bottom_ := 0
    margin_left_ := 0
    width_ := 0
    max_width_ := 0
    height_ := 0
    max_height_ := 0
    border_ := none
    border_fg_color_ := none
    border_top_ := true
    border_right_ := true
    border_bottom_ := true
    border_left_ := true
    align_ := 0 }

/-- Style.border(border_type) with no side arguments: sets the glyph set and
turns all four sides on. -/
def Style.border (s : Style) (b : Border) : Style :=
  { s with
    border_ := some b
    border_top_ := true
    border_right_ := true
    border_bottom_ := true
    border_left_ := true }

/-- Style.width(n). -/
def Style.width (s : Style) (n : Int) : Style := { s with width_ := n }

/-- Style.margin(n): the one-argument CSS shorthand, all four margins. -/
def Style.margin (s : Style) (n : Int) : Style :=
  { s with
    margin_top_ := n
    margin_right_ := n
    margin_bottom_ := n
    margin_left_ := n }

/-- Decimal digits of a channel value. -/
def natChars (n : Nat) : List Char := natCharsGo (n + 1) n

/-- style._fg_code for an (r,g,b) triple. -/
def fg_code (r g b : Nat) : List Char :=
  ['\x1b', '[', '3', '8', ';', '2', ';'] ++ natChars r ++ [';'] ++
    natChars g ++ [';'] ++ natChars b ++ ['m']

/-- style._bg_code for an (r,g,b) triple. -/
def bg_code (r g b : Nat) : List Char :=
  ['\x1b', '[', '4', '8', ';', '2', ';'] ++ natChars r ++ [';'] ++
    natChars g ++ [';'] ++ natChars b ++ ['m']

/-- Style._build_prefix: decoration and color codes, in declaration order. -/
def buildCodes (s : Style) : List Char :=
  (if s.bold_ then ['\x1b', '[', '1', 'm'] else []) ++
  (if s.dim_ then ['\x1b', '[', '2', 'm'] else []) ++
  (if s.italic_ then ['\x1b', '[', '3', 'm'] else []) ++
  (if s.underline_ then ['\x1b', '[', '4', 'm'] else []) ++
  (if s.reverse_ then ['\x1b', '[', '7', 'm'] else []) ++
  (if s.strikethrough_ then ['\x1b', '[', '9', 'm'] else []) ++
  (match s.fg_color_ with
   | some rgb => fg_code rgb.1 rgb.2.1 rgb.2.2
   | none => []) ++
  (match s.bg_color_ with
   | some rgb => bg_code rgb.1 rgb.2.1 rgb.2.2
   | none => [])

/-- max of the visible widths of a list of lines (Python max with
default=0). -/
def maxVw (lines : List (List Char)) : Nat :=
  (lines.map visible_width).foldr max 0

/-- Python int() truncation toward zero on an exact rational. -/
def pytrunc (q : Rat) : Int := if 0 ≤ q then q.floor else -((-q).floor)

/-- Style._apply_wrap: word-wrap each line to the inner content width (fixed
width minus padding and enabled side borders), when a fixed width is set. -/
def apply_wrap (s : Style) (lines : List (List Char)) : List (List Char) :=
  if s.width_ ≤ 0 then lines
  else
    let content_w := s.width_ - s.padding_left_ - s.padding_right_ -
      (if s.border_.isSome ∧ s.border_left_ then 1 else 0) -
      (if s.border_.isSome ∧ s.border_right_ then 1 else 0)
    if content_w ≤ 0 then lines
    else (lines.map (fun l => splitNl (word_wrap l content_w))).flatten

/-- Style._apply_padding: plain spaces left/right, blank lines top/bottom
sized to the block's current maximal visible width. -/
def apply_padding (s : Style) (lines : List (List Char)) : List (List Char) :=
  let r1 :=
    if s.padding_left_ > 0 ∨ s.padding_right_ > 0 then
      lines.map (fun l =>
        List.replicate s.padding_left_.toNat ' ' ++ l ++
          List.replicate s.padding_right_.toNat ' ')
    else lines
  let r2 :=
    if s.padding_top_ > 0 then
      List.replicate s.padding_top_.toNat (List.replicate (maxVw r1) ' ') ++ r1
    else r1
  if s.padding_bottom_ > 0 then
    r2 ++ List.replicate s.padding_bottom_.toNat (List.replicate (maxVw r2) ' ')
  else r2

/-- Style._apply_width: pad or safety-truncate each line to the inner target
width (fixed width minus enabled side borders). -/
def apply_width (s : Style) (lines : List (List Char)) : List (List Char) :=
  if s.width_ ≤ 0 then lines
  else
    let target :=
      if s.border_.isSome then
        max (s.width_ - (if s.border_left_ then 1 else 0) -
          (if s.border_right_ then 1 else 0)) 0
      else s.width_
    lines.map (fun l =>
      if (visible_width l : Int) < target then pad_right l target
      else if (visible_width l : Int) > target then truncate l target
      else l)

/-- Style._apply_height: pad with blank lines or drop lines to the inner
target height (fixed height minus enabled top/bottom borders). -/
def apply_height (s : Style) (lines : List (List Char)) : List (List Char) :=
  if s.height_ ≤ 0 then lines
  else
    let target :=
      if s.border_.isSome then
        max (s.height_ - (if s.border_top_ then 1 else 0) -
          (if s.border_bottom_ then 1 else 0)) 0
      else s.height_
    if (lines.length : Int) < target then
      lines ++ List.replicate (target - lines.length).toNat
        (List.replicate (maxVw lines) ' ')
    else if (lines.length : Int) > target then lines.take target.toNat
    else lines

/-- Style._apply_align: distribute each line's gap against the block's
maximal width by the alignment fraction (int() truncation). -/
def apply_align (s : Style) (lines : List (List Char)) : List (List Char) :=
  if s.align_ = 0 then lines
  else
    let max_w := maxVw lines
    lines.map (fun l =>
      let vw := visible_width l
      let gap : Int := (max_w : Int) - (vw : Int)
      if gap ≤ 0 then l
      else
        let left_pad := pytrunc ((gap : Rat) * s.align_)
        List.replicate left_pad.toNat ' ' ++ l ++
          List.replicate (gap - left_pad).toNat ' ')

/-- Style._apply_border: draw the enabled border sides around the block,
padding every content line to the block's maximal visible width; an optional
border color wraps each glyph run. -/
def apply_border (s : Style) (lines : List (List Char)) : List (List Char) :=
  match s.border_ with
  | none => lines
  | some b =>
    let content_w := maxVw lines
    let bfg :=
      match s.border_fg_color_ with
      | some rgb => fg_code rgb.1 rgb.2.1 rgb.2.2
      | none => []
    let breset := if bfg.isEmpty then [] else resetSeq
    let top :=
      if s.border_top_ then
        [bfg ++ (if s.border_left_ then b.top_left else []) ++
          (List.replicate content_w b.horizontal).flatten ++
          (if s.border_right_ then b.top_right else []) ++ breset]
      else []
    let mid := lines.map (fun l =>
      let padded := l ++ List.replicate (content_w - visible_width l) ' '
      (if s.border_left_ then bfg ++ b.vertical ++ breset else []) ++ padded ++
        (if s.border_right_ then bfg ++ b.vertical ++ breset else []))
    let bot :=
      if s.border_bottom_ then
        [bfg ++ (if s.border_left_ then b.bottom_left else []) ++
          (List.replicate content_w b.horizontal).flatten ++
          (if s.border_right_ then b.bottom_right else []) ++ breset]
      else []
    top ++ mid ++ bot

/-- Style._apply_margin: plain uncolored spaces left/right, empty lines
top/bottom. -/
def apply_margin (s : Style) (lines : List (List Char)) : List (List Char) :=
  let r1 :=
    if s.margin_left_ > 0 ∨ s.margin_right_ > 0 then
      lines.map (fun l =>
        List.replicate s.margin_left_.toNat ' ' ++ l ++
          List.replicate s.margin_right_.toNat ' ')
    else lines
  let r2 :=
    if s.margin_top_ > 0 then
      List.replicate s.margin_top_.toNat ([] : List Char) ++ r1
    else r1
  if s.margin_bottom_ > 0 then
    r2 ++ List.replicate s.margin_bottom_.toNat ([] : List Char)
  else r2

/-- Stages 1–8 of Style.render (wrap, padding, width clamp, height clamp,
alignment, width normalization across lines, decoration/color wrapping,
max-height cap), in source order. -/
def renderCore (s : Style) (content : List Char) : List (List Char) :=
  let l1 := apply_wrap s (splitNl content)
  let l2 := apply_padding s l1
  let l3 := apply_width s l2
  let l4 := apply_height s l3
  let l5 := apply_align s l4
  let l6 :=
    if l5.length > 1 then
      let mw := maxVw l5
      l5.map (fun l => pad_right l (mw : Int))
    else l5
  let pfx := buildCodes s
  let l7 := if pfx.isEmpty then l6 else l6.map (fun l => pfx ++ l ++ resetSeq)
  if s.max_height_ > 0 ∧ (l7.length : Int) > s.max_height_ then
    l7.take s.max_height_.toNat
  else l7

/-- The line list Style.render builds before the final newline join: the
core stages, then border, margin, and the final max-width truncation, in
source order. -/
def renderLines (s : Style) (content : List Char) : List (List Char) :=
  let l9 := apply_border s (renderCore s content)
  let l10 := apply_margin s l9
  if s.max_width_ > 0 then l10.map (fun l => truncate l s.max_width_) else l10

/-- Style.render: the joined output string. -/
def Style.render (s : Style) (content : List Char) : List Char :=
  joinNl (renderLines s content)

/-- No escape sequence is split across the concatenation boundary of `a` and
`b`: at every scan position inside `a`, the regex match (or its absence) is
the same whether or not `b` follows.  This is the boundary condition of the
width-additivity property. -/
def split_free (a b : List Char) : Prop :=
  ∀ i, i < a.length → ansiLen ((a ++ b).drop i) = ansiLen (a.drop i)

/-- A border glyph that occupies exactly one ordinary column: a single
character of width 1 that is not a newline and cannot interact with the
escape-sequence scanner (not ESC, BEL, a bracket, a CSI parameter or a
letter).  Every glyph of the five named border sets satisfies this. -/
def plain_glyph (g : List Char) : Bool :=
  match g with
  | [c] =>
    char_width c == 1 && !(c == escChar) && !(c == belChar) &&
      !(c == '[') && !(c == ']') && !(c == '(') && !(c == ')') &&
      !(c == '\n') && !(isCsiParam c) && !(isAlphaCh c)
  | _ => false

/-- All six glyphs of a border are plain single-column glyphs. -/
def plain_border (b : Border) : Bool :=
  plain_glyph b.top_left && plain_glyph b.top_right &&
    plain_glyph b.bottom_left && plain_glyph b.bottom_right &&
    plain_glyph b.horizontal && plain_glyph b.vertical

/-- Number of start() calls for key `k` in an effect trace. -/
def countStart (k : String) (evs : List Eff) : Nat :=
  evs.countP (fun e => e = Eff.subStarted k)

/-- Number of stop() calls for key `k` in an effect trace. -/
def countStop (k : String) (evs : List Eff) : Nat :=
  evs.countP (fun e => e = Eff.subStopped k)

/-- Invariant of word_wrap's word loop over inputs whose characters satisfy
`P` (instantiated with membership in the wrapped line): all emitted lines fit
in the width and consist of `P`-characters, the tracked width is exact and in
bounds, and no styling is active. -/
def wwInv (w : Int) (P : Char → Prop) (st : WwState) : Prop :=
  (∀ l ∈ st.wrapped, (visible_width l : Int) ≤ w ∧ ∀ c ∈ l, P c) ∧
  st.cw = visible_width st.cl ∧
  ((st.cw : Int) ≤ w) ∧
  (∀ c ∈ st.cl, P c) ∧
  st.active = []

/-! # Theorems -/

/-- C1: Dispatching a quit message halts the event loop without reaching the
model: Program._process on a QuitMsg sets the quit flag and returns before
the model's update — the stored model, renderer state, stored dimensions and
active subscriptions are unchanged, and no update/command/subscription/render
action occurs (empty effect list). -/
theorem C1_quit_halts_before_model {M : Type} (ops : ModelOps M)
    (st : PState M) :
    (process ops st Msg.quit).1.quitFlag = true ∧
    (process ops st Msg.quit).1.model = st.model ∧
    (process ops st Msg.quit).1.renderer = st.renderer ∧
    (process ops st Msg.quit).1.activeSubs = st.activeSubs ∧
    (process ops st Msg.quit).1.width = st.width ∧
    (process ops st Msg.quit).1.height = st.height ∧
    (process ops st Msg.quit).2 = [] := by
  refine ⟨rfl, rfl, rfl, rfl, rfl, rfl, rfl⟩

/-- C9: the keyword argument `cursor` that Program._render passes is not
accepted by Renderer.render's parameter list (output, width, height; no
**kwargs), so the internal render call does not bind — in Python the render
step raises TypeError on every render. -/
theorem C9_render_call_rejects_cursor_keyword :
    renderer_accepts_keyword "cursor" = false ∧ program_render_call_ok = false := by
  exact ⟨rfl, rfl⟩

/-- C6: the key decoder maps ESC [ A to the "up" key event; a bare ESC with
no further byte before the timeout decodes to the "esc" key event; ESC
immediately followed by the printable byte a decodes to "alt+a". -/
theorem C6_escape_decoding_examples :
    read_key [0x1b, 0x5b, 0x41] = .ok (some ⟨"up", ""⟩) ∧
    read_key [0x1b] = .ok (some ⟨"esc", ""⟩) ∧
    read_key [0x1b, 0x61] = .ok (some ⟨"alt+a", "a"⟩) := by
  refine ⟨rfl, rfl, rfl⟩

section SyncSubsProofs

/-- The dict-membership test of the start phase, as list membership. -/
lemma startStep_of_mem (acc : List String × List Eff) (k : String)
    (h : k ∈ acc.1) : startStep acc k = acc := by
  have hc : acc.1.contains k = true := List.elem_iff.mpr h
  simp only [startStep, hc]
  rfl

/-- The start phase on a key that is not yet retained. -/
lemma startStep_of_not_mem (acc : List String × List Eff) (k : String)
    (h : k ∉ acc.1) :
    startStep acc k = (acc.1 ++ [k], acc.2 ++ [Eff.subStarted k]) := by
  have hc : acc.1.contains k = false := by
    cases hcc : acc.1.contains k with
    | false => rfl
    | true => exact absurd (List.elem_iff.mp hcc) h
  simp only [startStep, hc]
  rfl

/-- countStart distributes over event-trace concatenation. -/
lemma countStart_append (k : String) (a b : List Eff) :
    countStart k (a ++ b) = countStart k a + countStart k b :=
  List.countP_append _ _ _

/-- countStop distributes over event-trace concatenation. -/
lemma countStop_append (k : String) (a b : List Eff) :
    countStop k (a ++ b) = countStop k a + countStop k b :=
  List.countP_append _ _ _

/-- Stop events contribute no start counts. -/
lemma countStart_map_stops (k : String) (l : List String) :
    countStart k (l.map Eff.subStopped) = 0 := by
  simp [countStart, List.countP_map, Function.comp]

/-- Start events contribute no stop counts. -/
lemma countStop_map_starts (k : String) (l : List String) :
    countStop k (l.map Eff.subStarted) = 0 := by
  simp [countStop, List.countP_map, Function.comp]

/-- Stop events for the keys of `l` count occurrences of the key in `l`. -/
lemma countStop_map_stops (k : String) (l : List String) :
    countStop k (l.map Eff.subStopped) = l.count k := by
  induction l with
  | nil => rfl
  | cons x l ih =>
    simp only [List.map_cons, countStop, List.countP_cons, List.count_cons]
    simp only [countStop] at ih
    rw [ih]
    by_cases hx : x = k
    · subst hx
      simp
    · have hf : (Eff.subStopped x = Eff.subStopped k) = False := by
        simp [hx]
      simp [hf, hx, Ne.symm hx]

/-- The start phase only appends start events. -/
lemma startStep_events (ds : List String) :
    ∀ acc : List String × List Eff, ∃ ss : List String,
      (ds.foldl startStep acc).2 = acc.2 ++ ss.map Eff.subStarted := by
  induction ds with
  | nil => intro acc; exact ⟨[], by simp⟩
  | cons k ds ih =>
    intro acc
    obtain ⟨ss, hss⟩ := ih (startStep acc k)
    by_cases h : k ∈ acc.1
    · refine ⟨ss, ?_⟩
      rw [List.foldl_cons] at *
      rwa [startStep_of_mem acc k h] at hss ⊢
    · refine ⟨k :: ss, ?_⟩
      rw [List.foldl_cons] at *
      rw [startStep_of_not_mem acc k h] at hss ⊢
      rw [hss]
      simp

/-- Membership in the accumulator after the start phase. -/
lemma startStep_mem (k : String) (ds : List String) :
    ∀ acc : List String × List Eff,
      (k ∈ (ds.foldl startStep acc).1 ↔ k ∈ acc.1 ∨ k ∈ ds) := by
  induction ds with
  | nil => intro acc; simp
  | cons d ds ih =>
    intro acc
    rw [List.foldl_cons, ih (startStep acc d)]
    by_cases h : d ∈ acc.1
    · rw [startStep_of_mem acc d h]
      constructor
      · rintro (ha | hds)
        · exact Or.inl ha
        · exact Or.inr (List.mem_cons_of_mem _ hds)
      · rintro (ha | hds)
        · exact Or.inl ha
        · rcases List.mem_cons.mp hds with rfl | hds
          · exact Or.inl h
          · exact Or.inr hds
    · rw [startStep_of_not_mem acc d h]
      constructor
      · rintro (ha | hds)
        · rcases List.mem_append.mp ha with ha | hk
          · exact Or.inl ha
          · exact Or.inr (List.mem_cons.mpr (Or.inl (List.mem_singleton.mp hk)))
        · exact Or.inr (List.mem_cons_of_mem _ hds)
      · rintro (ha | hds)
        · exact Or.inl (List.mem_append.mpr (Or.inl ha))
        · rcases List.mem_cons.mp hds with rfl | hds
          · exact Or.inl
              (List.mem_append.mpr (Or.inr (List.mem_singleton.mpr rfl)))
          · exact Or.inr hds

/-- A key already retained is never started again by the start phase. -/
lemma startStep_count_mem (k : String) (ds : List String) :
    ∀ acc : List String × List Eff, k ∈ acc.1 →
      countStart k (ds.foldl startStep acc).2 = countStart k acc.2 := by
  induction ds with
  | nil => intro acc _; rfl
  | cons d ds ih =>
    intro acc hk
    rw [List.foldl_cons]
    by_cases h : d ∈ acc.1
    · rw [startStep_of_mem acc d h]
      exact ih acc hk
    · have hkd : k ≠ d := fun he => h (he ▸ hk)
      rw [startStep_of_not_mem acc d h,
        ih _ (List.mem_append.mpr (Or.inl hk))]
      simp [countStart, Ne.symm hkd]

/-- A declared key not yet retained is started exactly once by the start
phase. -/
lemma startStep_count_new (k : String) (ds : List String) :
    ∀ acc : List String × List Eff, k ∉ acc.1 → k ∈ ds →
      countStart k (ds.foldl startStep acc).2 = countStart k acc.2 + 1 := by
  induction ds with
  | nil => intro acc _ h; cases h
  | cons d ds ih =>
    intro acc hk hds
    rw [List.foldl_cons]
    by_cases hkd : k = d
    · subst hkd
      rw [startStep_of_not_mem acc k hk,
        startStep_count_mem k ds _
          (List.mem_append.mpr (Or.inr (List.mem_singleton.mpr rfl)))]
      simp [countStart]
    · have hds' : k ∈ ds := by
        rcases List.mem_cons.mp hds with h | h
        · exact absurd h hkd
        · exact h
      by_cases h : d ∈ acc.1
      · rw [startStep_of_mem acc d h]
        exact ih acc hk hds'
      · rw [startStep_of_not_mem acc d h, ih _ ?_ hds']
        · simp [countStart, Ne.symm hkd]
        · intro hmem
          rcases List.mem_append.mp hmem with hmem | hmem
          · exact hk hmem
          · exact hkd (List.mem_singleton.mp hmem)

/-- After one reconciliation the active key set equals the declared key
set. -/
lemma sync_subs_mem (active desired : List String) (k : String) :
    k ∈ (sync_subs active desired).1 ↔ k ∈ desired := by
  unfold sync_subs
  rw [startStep_mem]
  constructor
  · rintro (hkept | hd)
    · simpa using (List.mem_filter.mp hkept).2
    · exact hd
  · intro hd
    exact Or.inr hd

/-- contains is false exactly on non-members. -/
lemma contains_false_of_not_mem (l : List String) (k : String) (h : k ∉ l) :
    l.contains k = false := by
  cases hc : l.contains k with
  | false => rfl
  | true => exact absurd (List.elem_iff.mp hc) h

/-- One reconciliation starts a declared key exactly when it is not already
active. -/
lemma sync_subs_start_count (active desired : List String) (k : String)
    (hd : k ∈ desired) :
    countStart k (sync_subs active desired).2 =
      if k ∈ active then 0 else 1 := by
  simp only [sync_subs]
  rw [countStart_append, countStart_map_stops]
  by_cases ha : k ∈ active
  · have hkept : k ∈ active.filter (fun x => desired.contains x) :=
      List.mem_filter.mpr ⟨ha, List.elem_iff.mpr hd⟩
    rw [if_pos ha, startStep_count_mem k desired _ hkept]
    rfl
  · have hkept : k ∉ active.filter (fun x => desired.contains x) :=
      fun h => ha (List.mem_filter.mp h).1
    rw [if_neg ha, startStep_count_new k desired _ hkept hd]
    rfl

/-- One reconciliation stops a retained key that is no longer declared
exactly once. -/
lemma sync_subs_stop_once (active desired : List String) (k : String)
    (hnd : active.Nodup) (hka : k ∈ active) (hkd : k ∉ desired) :
    countStop k (sync_subs active desired).2 = 1 := by
  simp only [sync_subs]
  obtain ⟨ss, hss⟩ := startStep_events desired
    (active.filter (fun x => desired.contains x), [])
  rw [countStop_append, hss]
  simp only [List.nil_append]
  rw [countStop_map_starts, countStop_map_stops]
  have hmemf : k ∈ active.filter (fun x => !desired.contains x) :=
    List.mem_filter.mpr ⟨hka, by rw [contains_false_of_not_mem desired k hkd]; rfl⟩
  rw [List.count_eq_one_of_mem (hnd.filter _) hmemf]

/-- Over a run in which the key is declared at every step, an already-active
key is never started. -/
lemma sync_run_zero (dss : List (List String)) (k : String) :
    ∀ active : List String, (∀ d ∈ dss, k ∈ d) → k ∈ active →
      countStart k (sync_subs_run active dss).2 = 0 := by
  induction dss with
  | nil => intro active _ _; rfl
  | cons d ds ih =>
    intro active hall ha
    simp only [sync_subs_run, countStart, List.countP_append]
    have h1 := sync_subs_start_count active d k (hall d (List.mem_cons_self d ds))
    rw [if_pos ha] at h1
    have h2 := ih (sync_subs active d).1
      (fun x hx => hall x (List.mem_cons_of_mem _ hx))
      ((sync_subs_mem active d k).mpr (hall d (List.mem_cons_self d ds)))
    simp only [countStart] at h1 h2
    omega

end SyncSubsProofs

/-- C2: subscription reconciliation keeps at most one active subscription per
key.  In one reconciliation all stop() calls precede all start() calls; a key
that is active but no longer declared is stopped exactly once; afterwards the
active key set equals the declared key set.  Across a run of reconciliations,
a key declared at every step is started exactly once when initially inactive
and never when already active. -/
theorem C2_subscription_reconciliation :
    (∀ active desired : List String, ∃ stops starts : List String,
      (sync_subs active desired).2 =
        stops.map Eff.subStopped ++ starts.map Eff.subStarted) ∧
    (∀ active desired : List String, ∀ k, active.Nodup → k ∈ active →
      k ∉ desired → countStop k (sync_subs active desired).2 = 1) ∧
    (∀ active desired : List String, ∀ k,
      k ∈ (sync_subs active desired).1 ↔ k ∈ desired) ∧
    (∀ active : List String, ∀ dss : List (List String), ∀ k,
      (∀ d ∈ dss, k ∈ d) → k ∈ active →
      countStart k (sync_subs_run active dss).2 = 0) ∧
    (∀ active : List String, ∀ d : List String, ∀ dss : List (List String),
      ∀ k, (∀ x ∈ d :: dss, k ∈ x) → k ∉ active →
      countStart k (sync_subs_run active (d :: dss)).2 = 1) := by
  refine ⟨?_, ?_, sync_subs_mem, ?_, ?_⟩
  · intro active desired
    obtain ⟨ss, hss⟩ := startStep_events desired
      (active.filter (fun k => desired.contains k), [])
    exact ⟨active.filter (fun k => !desired.contains k), ss, by
      simp only [sync_subs]
      rw [hss]
      simp⟩
  · intro active desired k hnd hka hkd
    exact sync_subs_stop_once active desired k hnd hka hkd
  · intro active dss k hall ha
    exact sync_run_zero dss k active hall ha
  · intro active d dss k hall ha
    simp only [sync_subs_run, countStart, List.countP_append]
    have h1 := sync_subs_start_count active d k (hall d (List.mem_cons_self d dss))
    rw [if_neg ha] at h1
    have h2 := sync_run_zero dss k (sync_subs active d).1
      (fun x hx => hall x (List.mem_cons_of_mem _ hx))
      ((sync_subs_mem active d k).mpr (hall d (List.mem_cons_self d dss)))
    simp only [countStart] at h1 h2
    omega

section StripAnsiProofs

/-- The CSI tail matcher consumes at least one and at most all characters. -/
lemma csiTail_bounds {rest : List Char} {k : Nat} (h : csiTail rest = some k) :
    1 ≤ k ∧ k ≤ rest.length := by
  induction rest generalizing k with
  | nil => simp [csiTail] at h
  | cons c cs ih =>
    simp only [csiTail] at h
    by_cases hp : isCsiParam c
    · rw [if_pos hp] at h
      cases hcs : csiTail cs with
      | none => rw [hcs] at h; cases h
      | some k' =>
        rw [hcs] at h
        obtain ⟨h1, h2⟩ := ih hcs
        simp at h
        simp only [List.length_cons]
        omega
    · rw [if_neg hp] at h
      by_cases ha : isAlphaCh c
      · rw [if_pos ha] at h
        simp at h
        subst h
        simp
      · rw [if_neg ha] at h
        cases h

/-- The OSC tail matcher consumes at least one and at most all characters. -/
lemma oscTail_bounds {rest : List Char} {k : Nat} (h : oscTail rest = some k) :
    1 ≤ k ∧ k ≤ rest.length := by
  induction rest generalizing k with
  | nil => simp [oscTail] at h
  | cons c cs ih =>
    simp only [oscTail] at h
    by_cases hb : c = belChar
    · rw [if_pos hb] at h
      simp at h
      subst h
      simp
    · rw [if_neg hb] at h
      cases hcs : oscTail cs with
      | none => rw [hcs] at h; cases h
      | some k' =>
        rw [hcs] at h
        obtain ⟨h1, h2⟩ := ih hcs
        simp at h
        simp only [List.length_cons]
        omega

/-- The charset tail matcher consumes exactly one character. -/
lemma charsetTail_bounds {rest : List Char} {k : Nat}
    (h : charsetTail rest = some k) : 1 ≤ k ∧ k ≤ rest.length := by
  cases rest with
  | nil => simp [charsetTail] at h
  | cons c cs =>
    simp only [charsetTail] at h
    by_cases hc : (c == 'A' || c == 'B' || c == '0' || c == '1' || c == '2')
      = true
    · rw [if_pos hc] at h
      simp at h
      subst h
      simp
    · rw [if_neg hc] at h
      cases h

/-- Any ANSI match is nonempty and bounded by the string's length. -/
lemma ansiLen_bounds {xs : List Char} {n : Nat} (h : ansiLen xs = some n) :
    1 ≤ n ∧ n ≤ xs.length := by
  match xs with
  | [] => cases h
  | [c] => cases h
  | c :: d :: rest =>
    simp only [ansiLen] at h
    by_cases hc : c = escChar
    · rw [if_pos hc] at h
      by_cases hd1 : d = '['
      · rw [if_pos hd1] at h
        cases ht : csiTail rest with
        | none => rw [ht] at h; cases h
        | some k =>
          rw [ht] at h
          simp at h
          obtain ⟨h1, h2⟩ := csiTail_bounds ht
          simp only [List.length_cons]
          omega
      · rw [if_neg hd1] at h
        by_cases hd2 : d = ']'
        · rw [if_pos hd2] at h
          cases ht : oscTail rest with
          | none => rw [ht] at h; cases h
          | some k =>
            rw [ht] at h
            simp at h
            obtain ⟨h1, h2⟩ := oscTail_bounds ht
            simp only [List.length_cons]
            omega
        · rw [if_neg hd2] at h
          by_cases hd3 : (d = '(' || d = ')') = true
          · rw [if_pos hd3] at h
            cases ht : charsetTail rest with
            | none => rw [ht] at h; cases h
            | some k =>
              rw [ht] at h
              simp at h
              obtain ⟨h1, h2⟩ := charsetTail_bounds ht
              simp only [List.length_cons]
              omega
          · rw [if_neg hd3] at h
            cases h
    · rw [if_neg hc] at h
      cases h

/-- Fuel irrelevance of the strip scan: any fuel at least the input length
gives the same result. -/
lemma stripGo_irrel : ∀ (f g : Nat) (xs : List Char), xs.length ≤ f →
    xs.length ≤ g → stripGo f xs = stripGo g xs := by
  intro f
  induction f with
  | zero =>
    intro g xs hf _
    have : xs = [] := List.length_eq_zero.mp (Nat.le_zero.mp hf)
    subst this
    cases g <;> rfl
  | succ f ih =>
    intro g xs hf hg
    cases xs with
    | nil => cases g <;> rfl
    | cons c rest =>
      cases g with
      | zero => simp at hg
      | succ g =>
        show stripGo (f + 1) (c :: rest) = stripGo (g + 1) (c :: rest)
        unfold stripGo
        cases hm : ansiLen (c :: rest) with
        | some n =>
          obtain ⟨h1, h2⟩ := ansiLen_bounds hm
          have hd : (List.drop n (c :: rest)).length ≤ f := by
            simp only [List.length_drop, List.length_cons] at *
            omega
          have hd' : (List.drop n (c :: rest)).length ≤ g := by
            simp only [List.length_drop, List.length_cons] at *
            omega
          exact ih g _ hd hd'
        | none =>
          have hr : rest.length ≤ f := by
            simp only [List.length_cons] at hf
            omega
          have hr' : rest.length ≤ g := by
            simp only [List.length_cons] at hg
            omega
          rw [ih g rest hr hr']

/-- One-step equation of strip_ansi at a match. -/
lemma strip_ansi_cons_match {c : Char} {rest : List Char} {n : Nat}
    (h : ansiLen (c :: rest) = some n) :
    strip_ansi (c :: rest) = strip_ansi (List.drop n (c :: rest)) := by
  unfold strip_ansi
  have e1 : stripGo ((c :: rest).length) (c :: rest)
      = match ansiLen (c :: rest) with
        | some n => stripGo rest.length (List.drop n (c :: rest))
        | none => c :: stripGo rest.length rest := rfl
  rw [e1, h]
  show stripGo rest.length (List.drop n (c :: rest))
    = stripGo (List.drop n (c :: rest)).length (List.drop n (c :: rest))
  obtain ⟨h1, h2⟩ := ansiLen_bounds h
  apply stripGo_irrel
  · simp only [List.length_drop, List.length_cons] at *
    omega
  · simp

/-- One-step equation of strip_ansi at a plain character. -/
lemma strip_ansi_cons_plain {c : Char} {rest : List Char}
    (h : ansiLen (c :: rest) = none) :
    strip_ansi (c :: rest) = c :: strip_ansi rest := by
  unfold strip_ansi
  have e1 : stripGo ((c :: rest).length) (c :: rest)
      = match ansiLen (c :: rest) with
        | some n => stripGo rest.length (List.drop n (c :: rest))
        | none => c :: stripGo rest.length rest := rfl
  rw [e1, h]

/-- Strip distributes over a split-free concatenation. -/
lemma strip_ansi_append : ∀ (n : Nat) (a b : List Char), a.length ≤ n →
    split_free a b → strip_ansi (a ++ b) = strip_ansi a ++ strip_ansi b := by
  intro n
  induction n with
  | zero =>
    intro a b ha _
    have : a = [] := List.length_eq_zero.mp (Nat.le_zero.mp ha)
    subst this
    rfl
  | succ n ih =>
    intro a b ha hsf
    cases a with
    | nil => rfl
    | cons c rest =>
      have h0 := hsf 0 (by simp)
      simp only [List.drop_zero] at h0
      cases hm : ansiLen (c :: rest) with
      | some m =>
        obtain ⟨h1, h2⟩ := ansiLen_bounds hm
        have hmb : ansiLen ((c :: rest) ++ b) = some m := by
          rw [h0, hm]
        have hs1 : strip_ansi ((c :: rest) ++ b) =
            strip_ansi (List.drop m ((c :: rest) ++ b)) := by
          cases b with
          | nil => simpa using strip_ansi_cons_match hm
          | cons b0 bs =>
            exact strip_ansi_cons_match (by simpa using hmb)
        have hdrop : List.drop m ((c :: rest) ++ b) =
            List.drop m (c :: rest) ++ b :=
          List.drop_append_of_le_length h2
        have hsf' : split_free (List.drop m (c :: rest)) b := by
          intro i hi
          have hlen : m + i < (c :: rest).length := by
            simp only [List.length_drop] at hi
            omega
          have hkey := hsf (m + i) hlen
          have e1 : (List.drop m (c :: rest) ++ b).drop i
              = ((c :: rest) ++ b).drop (m + i) := by
            rw [← hdrop, List.drop_drop, Nat.add_comm]
          have e2 : (List.drop m (c :: rest)).drop i
              = (c :: rest).drop (m + i) := by
            rw [List.drop_drop, Nat.add_comm]
          rw [e1, e2]
          exact hkey
        have hlen' : (List.drop m (c :: rest)).length ≤ n := by
          simp only [List.length_drop, List.length_cons] at *
          omega
        rw [hs1, hdrop, ih _ b hlen' hsf', strip_ansi_cons_match hm]
      | none =>
        have hmb : ansiLen ((c :: rest) ++ b) = none := by
          rw [h0, hm]
        have hs1 : strip_ansi ((c :: rest) ++ b) =
            c :: strip_ansi (rest ++ b) := by
          exact strip_ansi_cons_plain (by simpa using hmb)
        have hsf' : split_free rest b := by
          intro i hi
          have := hsf (i + 1) (by simpa using Nat.succ_lt_succ hi)
          simpa using this
        have hlen' : rest.length ≤ n := by
          simp only [List.length_cons] at ha
          omega
        rw [hs1, ih rest b hlen' hsf', strip_ansi_cons_plain hm]
        rfl

/-- visible_width as a sum of character widths over the stripped string. -/
lemma visible_width_eq_sum (s : List Char) :
    visible_width s = ((strip_ansi s).map char_width).sum := by
  unfold visible_width
  generalize strip_ansi s = l
  induction l with
  | nil => rfl
  | cons c l ih => simp [ih]

end StripAnsiProofs

section AnsiAppend

/-- A successful CSI tail match is unaffected by appending more input. -/
lemma csiTail_append_some {rest : List Char} {k : Nat} (ys : List Char)
    (h : csiTail rest = some k) : csiTail (rest ++ ys) = some k := by
  induction rest generalizing k with
  | nil => simp [csiTail] at h
  | cons c cs ih =>
    simp only [List.cons_append, csiTail, List.append_eq] at h ⊢
    by_cases hp : isCsiParam c
    · rw [if_pos hp] at h ⊢
      cases hcs : csiTail cs with
      | none => rw [hcs] at h; cases h
      | some k' =>
        rw [hcs] at h
        rw [ih hcs]
        exact h
    · rw [if_neg hp] at h ⊢
      by_cases ha : isAlphaCh c
      · rw [if_pos ha] at h ⊢
        exact h
      · rw [if_neg ha] at h
        cases h

/-- A failed CSI tail match stays failed when the appended input starts with
a character that is neither a CSI parameter nor a letter. -/
lemma csiTail_append_none {rest : List Char} (ys : List Char)
    (hh : ∀ c, ys.head? = some c → isCsiParam c = false ∧ isAlphaCh c = false)
    (h : csiTail rest = none) : csiTail (rest ++ ys) = none := by
  induction rest with
  | nil =>
    cases ys with
    | nil => rfl
    | cons y ys' =>
      obtain ⟨hp, ha⟩ := hh y rfl
      simp only [List.nil_append, csiTail, hp, ha]
      rfl
  | cons c cs ih =>
    simp only [List.cons_append, csiTail, List.append_eq] at h ⊢
    by_cases hp : isCsiParam c
    · rw [if_pos hp] at h ⊢
      rw [Option.map_eq_none'] at h ⊢
      exact ih h
    · rw [if_neg hp] at h ⊢
      by_cases ha : isAlphaCh c
      · rw [if_pos ha] at h
        cases h
      · rw [if_neg ha]

/-- A successful OSC tail match is unaffected by appending more input. -/
lemma oscTail_append_some {rest : List Char} {k : Nat} (ys : List Char)
    (h : oscTail rest = some k) : oscTail (rest ++ ys) = some k := by
  induction rest generalizing k with
  | nil => simp [oscTail] at h
  | cons c cs ih =>
    simp only [List.cons_append, oscTail, List.append_eq] at h ⊢
    by_cases hb : c = belChar
    · rw [if_pos hb] at h ⊢
      exact h
    · rw [if_neg hb] at h ⊢
      cases hcs : oscTail cs with
      | none => rw [hcs] at h; cases h
      | some k' =>
        rw [hcs] at h
        rw [ih hcs]
        exact h

/-- The OSC tail matcher fails exactly on BEL-free input. -/
lemma oscTail_eq_none_iff {zs : List Char} :
    oscTail zs = none ↔ belChar ∉ zs := by
  induction zs with
  | nil => simp [oscTail]
  | cons c cs ih =>
    simp only [oscTail, List.mem_cons]
    by_cases hb : c = belChar
    · rw [if_pos hb]
      simp [hb]
    · rw [if_neg hb]
      rw [Option.map_eq_none']
      rw [ih]
      constructor
      · rintro hn (rfl | hm)
        · exact hb rfl
        · exact hn hm
      · intro hn hm
        exact hn (Or.inr hm)

/-- A successful charset tail match is unaffected by appending more input. -/
lemma charsetTail_append_some {rest : List Char} {k : Nat} (ys : List Char)
    (h : charsetTail rest = some k) : charsetTail (rest ++ ys) = some k := by
  cases rest with
  | nil => simp [charsetTail] at h
  | cons c cs =>
    simp only [List.cons_append, charsetTail, List.append_eq] at h ⊢
    exact h

/-- A failed charset tail match stays failed when the appended input starts
with a character that is neither a CSI parameter nor a letter. -/
lemma charsetTail_append_none {rest : List Char} (ys : List Char)
    (hh : ∀ c, ys.head? = some c → isCsiParam c = false ∧ isAlphaCh c = false)
    (h : charsetTail rest = none) : charsetTail (rest ++ ys) = none := by
  cases rest with
  | nil =>
    cases ys with
    | nil => rfl
    | cons y ys' =>
      obtain ⟨hp, ha⟩ := hh y rfl
      have hA : (y == 'A') = false := by
        cases hy : y == 'A' with
        | false => rfl
        | true =>
          have : y = 'A' := by exact beq_iff_eq.mp hy
          subst this
          cases ha
      have hB : (y == 'B') = false := by
        cases hy : y == 'B' with
        | false => rfl
        | true =>
          have : y = 'B' := by exact beq_iff_eq.mp hy
          subst this
          cases ha
      have h0 : (y == '0') = false := by
        cases hy : y == '0' with
        | false => rfl
        | true =>
          have : y = '0' := by exact beq_iff_eq.mp hy
          subst this
          cases hp
      have h1 : (y == '1') = false := by
        cases hy : y == '1' with
        | false => rfl
        | true =>
          have : y = '1' := by exact beq_iff_eq.mp hy
          subst this
          cases hp
      have h2 : (y == '2') = false := by
        cases hy : y == '2' with
        | false => rfl
        | true =>
          have : y = '2' := by exact beq_iff_eq.mp hy
          subst this
          cases hp
      simp only [List.nil_append, charsetTail, hA, hB, h0, h1, h2]
      rfl
  | cons c cs =>
    simp only [List.cons_append, charsetTail, List.append_eq] at h ⊢
    exact h

/-- An ANSI match (or its absence) at the head of a nonempty string is
unaffected by appending input that contains no BEL and starts with a
character the scanner cannot absorb (not a parameter, letter or bracket). -/
lemma ansiLen_append_eq (zs ys : List Char) (hne : zs ≠ [])
    (hbel : belChar ∉ ys)
    (hh : ∀ c, ys.head? = some c → isCsiParam c = false ∧ isAlphaCh c = false ∧
      c ≠ '[' ∧ c ≠ ']' ∧ c ≠ '(' ∧ c ≠ ')') :
    ansiLen (zs ++ ys) = ansiLen zs := by
  have hh' : ∀ c, ys.head? = some c →
      isCsiParam c = false ∧ isAlphaCh c = false := by
    intro c hc
    exact ⟨(hh c hc).1, (hh c hc).2.1⟩
  match zs with
  | [] => exact absurd rfl hne
  | [c] =>
    cases ys with
    | nil => rfl
    | cons y ys' =>
      obtain ⟨hp, ha, hlb, hrb, hlp, hrp⟩ := hh y rfl
      show ansiLen (c :: y :: ys') = ansiLen [c]
      by_cases hc : c = escChar
      · simp only [ansiLen, if_pos hc]
        rw [if_neg hlb, if_neg hrb]
        have hpar : (y = '(' || y = ')') = false := by
          simp [hlp, hrp]
        rw [if_neg (by simp [hlp, hrp])]
      · simp only [ansiLen, if_neg hc]
  | c :: d :: rest =>
    show ansiLen (c :: d :: (rest ++ ys)) = ansiLen (c :: d :: rest)
    by_cases hc : c = escChar
    · simp only [ansiLen, if_pos hc]
      by_cases hd1 : d = '['
      · rw [if_pos hd1, if_pos hd1]
        cases ht : csiTail rest with
        | some k => rw [csiTail_append_some ys ht]
        | none => rw [csiTail_append_none ys hh' ht]
      · rw [if_neg hd1, if_neg hd1]
        by_cases hd2 : d = ']'
        · rw [if_pos hd2, if_pos hd2]
          cases ht : oscTail rest with
          | some k => rw [oscTail_append_some ys ht]
          | none =>
            have hnb : belChar ∉ rest := oscTail_eq_none_iff.mp ht
            have hnb2 : belChar ∉ rest ++ ys := by
              intro hm
              rcases List.mem_append.mp hm with hm | hm
              · exact hnb hm
              · exact hbel hm
            rw [oscTail_eq_none_iff.mpr hnb2]
        · rw [if_neg hd2, if_neg hd2]
          by_cases hd3 : (d = '(' || d = ')') = true
          · rw [if_pos hd3, if_pos hd3]
            cases ht : charsetTail rest with
            | some k => rw [charsetTail_append_some ys ht]
            | none => rw [charsetTail_append_none ys hh' ht]
          · rw [if_neg hd3, if_neg hd3]
    · simp only [ansiLen, if_neg hc]

/-- Appending a BEL-free string with a scanner-inert head never splits an
escape sequence across the boundary. -/
lemma split_free_of_safe (xs ys : List Char) (hbel : belChar ∉ ys)
    (hh : ∀ c, ys.head? = some c → isCsiParam c = false ∧ isAlphaCh c = false ∧
      c ≠ '[' ∧ c ≠ ']' ∧ c ≠ '(' ∧ c ≠ ')') :
    split_free xs ys := by
  intro i hi
  rw [List.drop_append_of_le_length (Nat.le_of_lt hi)]
  apply ansiLen_append_eq _ _ _ hbel hh
  intro hcontra
  have hlen := congrArg List.length hcontra
  simp only [List.length_drop, List.length_nil] at hlen
  omega

/-- Shared form of the width-additivity fact for split-free boundaries. -/
lemma visible_width_append (xs ys : List Char) (h : split_free xs ys) :
    visible_width (xs ++ ys) = visible_width xs + visible_width ys := by
  rw [visible_width_eq_sum, visible_width_eq_sum, visible_width_eq_sum,
    strip_ansi_append xs.length xs ys (Nat.le_refl _) h, List.map_append,
    List.sum_append]

end AnsiAppend

section PlainStrip

/-- No match can start other than at an ESC character. -/
lemma ansiLen_head_ne_esc {c : Char} {rest : List Char} (h : c ≠ escChar) :
    ansiLen (c :: rest) = none := by
  cases rest with
  | nil => rfl
  | cons d rs => simp only [ansiLen, if_neg h]

/-- Stripping is the identity on ESC-free strings. -/
lemma strip_ansi_no_esc {xs : List Char} (h : escChar ∉ xs) :
    strip_ansi xs = xs := by
  induction xs with
  | nil => rfl
  | cons c rest ih =>
    have hc : c ≠ escChar := fun he => h (he ▸ List.mem_cons_self c rest)
    rw [strip_ansi_cons_plain (ansiLen_head_ne_esc hc),
      ih (fun hm => h (List.mem_cons_of_mem _ hm))]

/-- An ESC-free prefix passes through the stripper unchanged. -/
lemma strip_ansi_plain_prefix {p : List Char} (xs : List Char)
    (h : escChar ∉ p) : strip_ansi (p ++ xs) = p ++ strip_ansi xs := by
  induction p with
  | nil => rfl
  | cons c ps ih =>
    have hc : c ≠ escChar := fun he => h (he ▸ List.mem_cons_self c ps)
    rw [List.cons_append, strip_ansi_cons_plain (ansiLen_head_ne_esc hc),
      ih (fun hm => h (List.mem_cons_of_mem _ hm))]
    rfl

/-- The CSI tail matcher on a parameter run closed by the letter m. -/
lemma csiTail_params {params : List Char} (xs : List Char)
    (h : ∀ p ∈ params, isCsiParam p = true) :
    csiTail (params ++ 'm' :: xs) = some (params.length + 1) := by
  induction params with
  | nil => rfl
  | cons p ps ih =>
    have hp := h p (List.mem_cons_self p ps)
    show csiTail (p :: (ps ++ 'm' :: xs)) = some (ps.length + 1 + 1)
    simp only [csiTail, if_pos hp]
    rw [ih (fun q hq => h q (List.mem_cons_of_mem _ hq))]
    rfl

/-- The full match length of an SGR-shaped sequence. -/
lemma ansiLen_sgr {params : List Char} (xs : List Char)
    (h : ∀ p ∈ params, isCsiParam p = true) :
    ansiLen (escChar :: '[' :: (params ++ 'm' :: xs)) =
      some (params.length + 3) := by
  simp only [ansiLen, if_pos rfl]
  rw [csiTail_params xs h]
  rfl

/-- An SGR-shaped prefix is removed whole by the stripper. -/
lemma strip_sgr_head {params : List Char} (xs : List Char)
    (h : ∀ p ∈ params, isCsiParam p = true) :
    strip_ansi ((escChar :: '[' :: params ++ ['m']) ++ xs) =
      strip_ansi xs := by
  have e : (escChar :: '[' :: params ++ ['m']) ++ xs =
      escChar :: '[' :: (params ++ 'm' :: xs) := by
    simp
  rw [e, strip_ansi_cons_match (ansiLen_sgr xs h)]
  have e2 : List.drop (params.length + 3)
      (escChar :: '[' :: (params ++ 'm' :: xs)) = xs := by
    show List.drop (params.length + 1 + 1 + 1)
      (escChar :: '[' :: (params ++ 'm' :: xs)) = xs
    rw [List.drop_succ_cons, List.drop_succ_cons]
    have e3 : params.length + 1 = params.length + 1 := rfl
    rw [show params ++ 'm' :: xs = (params ++ ['m']) ++ xs by simp]
    rw [show params.length + 1 = (params ++ ['m']).length by simp]
    exact List.drop_left _ _
  rw [e2]

/-- Digit characters are CSI parameters. -/
lemma digit_isCsiParam : ∀ d, d < 10 → isCsiParam (Char.ofNat (48 + d)) = true := by
  decide

/-- Every character the decimal printer produces is a digit character. -/
lemma natCharsGo_shape : ∀ (fuel n : Nat) (c : Char), c ∈ natCharsGo fuel n →
    ∃ d, d < 10 ∧ c = Char.ofNat (48 + d) := by
  intro fuel
  induction fuel with
  | zero => intro n c hc; cases hc
  | succ fuel ih =>
    intro n c hc
    simp only [natCharsGo] at hc
    by_cases hn : n < 10
    · rw [if_pos hn] at hc
      rcases List.mem_singleton.mp hc with rfl
      exact ⟨n, hn, rfl⟩
    · rw [if_neg hn] at hc
      rcases List.mem_append.mp hc with hm | hm
      · exact ih (n / 10) c hm
      · rcases List.mem_singleton.mp hm with rfl
        exact ⟨n % 10, Nat.mod_lt n (by omega), rfl⟩

/-- The decimal printer only emits CSI parameter characters. -/
lemma natChars_params (n : Nat) : ∀ c ∈ natChars n, isCsiParam c = true := by
  intro c hc
  obtain ⟨d, hd, rfl⟩ := natCharsGo_shape (n + 1) n c hc
  exact digit_isCsiParam d hd

/-- The parameter run of a 24-bit color code. -/
lemma color_params (intro2 : List Char) (r g b : Nat)
    (hintro : ∀ c ∈ intro2, isCsiParam c = true) :
    ∀ c ∈ intro2 ++ natChars r ++ [';'] ++ natChars g ++ [';'] ++ natChars b,
      isCsiParam c = true := by
  intro c hc
  simp only [List.append_assoc, List.mem_append, List.mem_singleton] at hc
  rcases hc with hc | hc | hc | hc | hc | hc
  · exact hintro c hc
  · exact natChars_params r c hc
  · subst hc; rfl
  · exact natChars_params g c hc
  · subst hc; rfl
  · exact natChars_params b c hc

/-- A foreground color code is removed whole by the stripper. -/
lemma strip_fg_code_head (r g b : Nat) (xs : List Char) :
    strip_ansi (fg_code r g b ++ xs) = strip_ansi xs := by
  have e : fg_code r g b = escChar ::
      '[' :: (['3', '8', ';', '2', ';'] ++ natChars r ++ [';'] ++ natChars g ++
        [';'] ++ natChars b) ++ ['m'] := by
    simp [fg_code, escChar, List.append_assoc]
  rw [e]
  exact strip_sgr_head xs (color_params _ r g b (by decide))

/-- The reset sequence is removed whole by the stripper. -/
lemma strip_reset_head (xs : List Char) :
    strip_ansi (resetSeq ++ xs) = strip_ansi xs := by
  have e : resetSeq = escChar :: '[' :: ['0'] ++ ['m'] := rfl
  rw [e]
  exact strip_sgr_head xs (by decide)

/-- visible_width of an ESC-free string is the plain sum of the character
widths. -/
lemma vw_no_esc {xs : List Char} (h : escChar ∉ xs) :
    visible_width xs = (xs.map char_width).sum := by
  rw [visible_width_eq_sum, strip_ansi_no_esc h]

/-- A run of spaces is one column per space. -/
lemma vw_spaces (k : Nat) : visible_width (List.replicate k ' ') = k := by
  rw [vw_no_esc (by simp [escChar])]
  have hw : char_width ' ' = 1 := rfl
  simp [hw]

end PlainStrip

section BorderWidth

/-- Any line's visible width is bounded by the block maximum. -/
lemma le_maxVw {L : List (List Char)} {l : List Char} (h : l ∈ L) :
    visible_width l ≤ maxVw L := by
  induction L with
  | nil => cases h
  | cons a L ih =>
    have e : maxVw (a :: L) = max (visible_width a) (maxVw L) := rfl
    rw [e]
    rcases List.mem_cons.mp h with rfl | hm
    · exact Nat.le_max_left _ _
    · exact Nat.le_trans (ih hm) (Nat.le_max_right _ _)

/-- Unpacking a plain glyph. -/
lemma plain_glyph_elim {g : List Char} (h : plain_glyph g = true) :
    ∃ c, g = [c] ∧ char_width c = 1 ∧ c ≠ escChar ∧ c ≠ belChar ∧
      c ≠ '[' ∧ c ≠ ']' ∧ c ≠ '(' ∧ c ≠ ')' ∧ c ≠ '\n' ∧
      isCsiParam c = false ∧ isAlphaCh c = false := by
  match g with
  | [] => cases h
  | c :: d :: rest => cases h
  | [c] =>
    refine ⟨c, rfl, ?_⟩
    simp only [plain_glyph, Bool.and_eq_true, beq_iff_eq, Bool.not_eq_true',
      beq_eq_false_iff_ne, Bool.not_eq_true] at h
    tauto

/-- Every character of a foreground color code. -/
lemma fg_code_chars (r g b : Nat) : ∀ c ∈ fg_code r g b,
    c = escChar ∨ c = '[' ∨ c = 'm' ∨ isCsiParam c = true := by
  intro c hc
  have e : fg_code r g b = escChar ::
      '[' :: ((['3', '8', ';', '2', ';'] ++ natChars r ++ [';'] ++
        natChars g ++ [';'] ++ natChars b) ++ ['m']) := by
    simp [fg_code, escChar, List.append_assoc]
  rw [e] at hc
  rcases List.mem_cons.mp hc with rfl | hc
  · exact Or.inl rfl
  rcases List.mem_cons.mp hc with rfl | hc
  · exact Or.inr (Or.inl rfl)
  rcases List.mem_append.mp hc with hc | hc
  · exact Or.inr (Or.inr (Or.inr (color_params _ r g b (by decide) c hc)))
  · rcases List.mem_singleton.mp hc with rfl
    exact Or.inr (Or.inr (Or.inl rfl))

/-- No BEL inside a foreground color code. -/
lemma fg_code_no_bel (r g b : Nat) : belChar ∉ fg_code r g b := by
  intro hm
  rcases fg_code_chars r g b belChar hm with h | h | h | h
  · exact absurd h (by decide)
  · exact absurd h (by decide)
  · exact absurd h (by decide)
  · exact absurd h (by decide)

/-- No newline inside a foreground color code. -/
lemma fg_code_no_nl (r g b : Nat) : '\n' ∉ fg_code r g b := by
  intro hm
  rcases fg_code_chars r g b '\n' hm with h | h | h | h
  · exact absurd h (by decide)
  · exact absurd h (by decide)
  · exact absurd h (by decide)
  · exact absurd h (by decide)

/-- A color code contributes no visible width. -/
lemma vw_fg_prefix (r g b : Nat) (xs : List Char) :
    visible_width (fg_code r g b ++ xs) = visible_width xs := by
  unfold visible_width
  rw [strip_fg_code_head]

/-- The reset sequence contributes no visible width. -/
lemma vw_reset_prefix (xs : List Char) :
    visible_width (resetSeq ++ xs) = visible_width xs := by
  unfold visible_width
  rw [strip_reset_head]

/-- An ESC-free prefix contributes its plain width. -/
lemma vw_plain_prefix {p : List Char} (xs : List Char) (h : escChar ∉ p) :
    visible_width (p ++ xs) = (p.map char_width).sum + visible_width xs := by
  rw [visible_width_eq_sum, strip_ansi_plain_prefix xs h, List.map_append,
    List.sum_append, ← visible_width_eq_sum]

/-- Spaces are boundary-safe to append. -/
lemma split_free_spaces (xs : List Char) (k : Nat) :
    split_free xs (List.replicate k ' ') := by
  apply split_free_of_safe
  · intro hm
    have := List.eq_of_mem_replicate hm
    exact absurd this (by decide)
  · intro c hc
    cases k with
    | zero => cases hc
    | succ k =>
      simp only [List.replicate_succ, List.head?_cons, Option.some_inj] at hc
      subst hc
      refine ⟨rfl, rfl, ?_, ?_, ?_, ?_⟩ <;> decide

/-- Padding a line with spaces up to the block maximum gives exactly the
block maximum. -/
lemma vw_padded {L : List (List Char)} {l : List Char} (h : l ∈ L) :
    visible_width (l ++ List.replicate (maxVw L - visible_width l) ' ') =
      maxVw L := by
  rw [visible_width_append _ _ (split_free_spaces l _), vw_spaces]
  have := le_maxVw h
  omega

/-- A run of copies of a single-character glyph is ESC-free when the glyph
is. -/
lemma flatten_replicate_singleton (n : Nat) (c : Char) :
    (List.replicate n [c]).flatten = List.replicate n c := by
  induction n with
  | zero => rfl
  | succ n ih => simp [List.replicate_succ, ih]

/-- Plain width of a replicated width-1 character. -/
lemma sum_width_replicate (n : Nat) (c : Char) (h : char_width c = 1) :
    ((List.replicate n c).map char_width).sum = n := by
  induction n with
  | zero => rfl
  | succ n ih =>
    simp [List.replicate_succ, h, ih]
    omega

/-- The reset sequence on its own has no visible width. -/
lemma vw_reset0 : visible_width resetSeq = 0 := by
  have h := vw_reset_prefix []
  rw [List.append_nil] at h
  exact h

/-- Visible width of a top or bottom border line: corners plus the
horizontal run. -/
lemma vw_glyph_line (bfg breset : List Char) (A B : List Char) (hcg : Char)
    (W : Nat)
    (hbfg : ∀ xs, visible_width (bfg ++ xs) = visible_width xs)
    (hb0 : visible_width breset = 0)
    (hAesc : escChar ∉ A) (hBesc : escChar ∉ B) (hhesc : hcg ≠ escChar)
    (hAw : (A.map char_width).sum = A.length)
    (hBw : (B.map char_width).sum = B.length)
    (hhw : char_width hcg = 1) :
    visible_width (bfg ++ A ++ (List.replicate W [hcg]).flatten ++ B ++ breset)
      = A.length + W + B.length := by
  rw [flatten_replicate_singleton]
  have e : bfg ++ A ++ List.replicate W hcg ++ B ++ breset =
      bfg ++ (A ++ (List.replicate W hcg ++ (B ++ breset))) := by
    simp [List.append_assoc]
  rw [e, hbfg, vw_plain_prefix _ hAesc,
    vw_plain_prefix _ (fun hm => hhesc ((List.eq_of_mem_replicate hm).symm)),
    vw_plain_prefix _ hBesc, hAw, hBw, sum_width_replicate W hcg hhw, hb0]
  omega

/-- Visible width of a bordered content line: the side borders plus the
block maximum. -/
lemma vw_mid_line (bfg breset : List Char) (vcg : Char) (bl br : Bool)
    (L : List (List Char)) (l : List Char) (hl : l ∈ L)
    (hbfg : ∀ xs, visible_width (bfg ++ xs) = visible_width xs)
    (hbreset : ∀ xs, visible_width (breset ++ xs) = visible_width xs)
    (hb0 : visible_width breset = 0)
    (hsafe : split_free (l ++ List.replicate (maxVw L - visible_width l) ' ')
      (bfg ++ [vcg] ++ breset))
    (hvesc : vcg ≠ escChar) (hvw : char_width vcg = 1) :
    visible_width ((if bl then bfg ++ [vcg] ++ breset else []) ++
        (l ++ List.replicate (maxVw L - visible_width l) ' ') ++
        (if br then bfg ++ [vcg] ++ breset else [])) =
      (if bl then 1 else 0) + maxVw L + (if br then 1 else 0) := by
  have hvcg : escChar ∉ [vcg] := by
    intro hm
    exact hvesc (List.mem_singleton.mp hm).symm
  have hsum : (([vcg]).map char_width).sum = 1 := by
    simp [hvw]
  have vwR : visible_width (bfg ++ [vcg] ++ breset) = 1 := by
    have e : bfg ++ [vcg] ++ breset = bfg ++ ([vcg] ++ breset) := by
      simp [List.append_assoc]
    rw [e, hbfg, vw_plain_prefix _ hvcg, hsum, hb0]
  have vwP : visible_width
      (l ++ List.replicate (maxVw L - visible_width l) ' ') = maxVw L :=
    vw_padded hl
  cases bl with
  | false =>
    cases br with
    | false =>
      show visible_width (([] : List Char) ++
        (l ++ List.replicate (maxVw L - visible_width l) ' ') ++
          ([] : List Char)) = 0 + maxVw L + 0
      rw [List.nil_append, List.append_nil, vwP]
      omega
    | true =>
      show visible_width (([] : List Char) ++
        (l ++ List.replicate (maxVw L - visible_width l) ' ') ++
          (bfg ++ [vcg] ++ breset)) = 0 + maxVw L + 1
      rw [List.nil_append, visible_width_append _ _ hsafe, vwP, vwR]
      omega
  | true =>
    cases br with
    | false =>
      show visible_width ((bfg ++ [vcg] ++ breset) ++
        (l ++ List.replicate (maxVw L - visible_width l) ' ') ++
          ([] : List Char)) = 1 + maxVw L + 0
      have eL : (bfg ++ [vcg] ++ breset) ++
          (l ++ List.replicate (maxVw L - visible_width l) ' ') ++
            ([] : List Char) =
          bfg ++ ([vcg] ++ (breset ++
            (l ++ List.replicate (maxVw L - visible_width l) ' '))) := by
        simp [List.append_assoc]
      rw [eL, hbfg, vw_plain_prefix _ hvcg, hsum, hbreset, vwP]
      omega
    | true =>
      show visible_width ((bfg ++ [vcg] ++ breset) ++
        (l ++ List.replicate (maxVw L - visible_width l) ' ') ++
          (bfg ++ [vcg] ++ breset)) = 1 + maxVw L + 1
      have eL : (bfg ++ [vcg] ++ breset) ++
          (l ++ List.replicate (maxVw L - visible_width l) ' ') ++
            (bfg ++ [vcg] ++ breset) =
          bfg ++ ([vcg] ++ (breset ++
            ((l ++ List.replicate (maxVw L - visible_width l) ' ') ++
              (bfg ++ [vcg] ++ breset)))) := by
        simp [List.append_assoc]
      rw [eL, hbfg, vw_plain_prefix _ hvcg, hsum, hbreset,
        visible_width_append _ _ hsafe, vwP, vwR]
      omega

/-- Visible width of a top or bottom border line with optional corners. -/
lemma vw_corner_line (bfg breset : List Char) (bl br : Bool)
    (cL cR hcg : Char) (W : Nat)
    (hbfg : ∀ xs, visible_width (bfg ++ xs) = visible_width xs)
    (hb0 : visible_width breset = 0)
    (hLesc : cL ≠ escChar) (hResc : cR ≠ escChar) (hhesc : hcg ≠ escChar)
    (hLw : char_width cL = 1) (hRw : char_width cR = 1)
    (hhw : char_width hcg = 1) :
    visible_width (bfg ++ (if bl then [cL] else []) ++
        (List.replicate W [hcg]).flatten ++ (if br then [cR] else []) ++
        breset) =
      (if bl then 1 else 0) + W + (if br then 1 else 0) := by
  have hAesc : escChar ∉ (if bl then [cL] else []) := by
    cases bl with
    | false => simp
    | true =>
      intro hm
      exact hLesc (List.mem_singleton.mp hm).symm
  have hBesc : escChar ∉ (if br then [cR] else []) := by
    cases br with
    | false => simp
    | true =>
      intro hm
      exact hResc (List.mem_singleton.mp hm).symm
  have hAw : ((if bl then [cL] else []).map char_width).sum =
      (if bl then [cL] else []).length := by
    cases bl with
    | false => rfl
    | true => simp [hLw]
  have hBw : ((if br then [cR] else []).map char_width).sum =
      (if br then [cR] else []).length := by
    cases br with
    | false => rfl
    | true => simp [hRw]
  rw [vw_glyph_line bfg breset _ _ hcg W hbfg hb0 hAesc hBesc hhesc hAw hBw
    hhw]
  cases bl with
  | false =>
    cases br with
    | false => rfl
    | true => rfl
  | true =>
    cases br with
    | false => rfl
    | true => rfl

/-- Every line produced by _apply_border has the same visible width: the
block maximum plus one column per enabled side border.  Requires the border
to carry plain single-column glyphs (true of all named glyph sets). -/
lemma apply_border_width {s : Style} {b : Border} (hb : s.border_ = some b)
    (hpb : plain_border b = true) (L : List (List Char)) :
    ∀ l ∈ apply_border s L,
      visible_width l = (if s.border_left_ then 1 else 0) + maxVw L +
        (if s.border_right_ then 1 else 0) := by
  simp only [plain_border, Bool.and_eq_true] at hpb
  obtain ⟨⟨⟨⟨⟨htl, htr⟩, hblg⟩, hbrg⟩, hhg⟩, hvg⟩ := hpb
  obtain ⟨tlc, tl_eq, tl_w, tl_esc, -, -, -, -, -, -, -⟩ := plain_glyph_elim htl
  obtain ⟨trc, tr_eq, tr_w, tr_esc, -, -, -, -, -, -, -⟩ := plain_glyph_elim htr
  obtain ⟨blc, bl_eq, bl_w, bl_esc, -, -, -, -, -, -, -⟩ := plain_glyph_elim hblg
  obtain ⟨brc, br_eq, br_w, br_esc, -, -, -, -, -, -, -⟩ := plain_glyph_elim hbrg
  obtain ⟨hcc, h_eq, h_w, h_esc, -, -, -, -, -, -, -⟩ := plain_glyph_elim hhg
  obtain ⟨vcc, v_eq, v_w, v_esc, v_bel, v_lb, v_rb, v_lp, v_rp, -, v_par, v_al⟩ :=
    plain_glyph_elim hvg
  intro l hl
  cases hfg : s.border_fg_color_ with
  | none =>
    have e2 : apply_border s L =
        (if s.border_top_ then
          [([] : List Char) ++ (if s.border_left_ then b.top_left else []) ++
            (List.replicate (maxVw L) b.horizontal).flatten ++
            (if s.border_right_ then b.top_right else []) ++ ([] : List Char)]
        else []) ++
        L.map (fun l =>
          (if s.border_left_ then
            ([] : List Char) ++ b.vertical ++ ([] : List Char) else []) ++
            (l ++ List.replicate (maxVw L - visible_width l) ' ') ++
            (if s.border_right_ then
              ([] : List Char) ++ b.vertical ++ ([] : List Char) else [])) ++
        (if s.border_bottom_ then
          [([] : List Char) ++
            (if s.border_left_ then b.bottom_left else []) ++
            (List.replicate (maxVw L) b.horizontal).flatten ++
            (if s.border_right_ then b.bottom_right else []) ++
            ([] : List Char)]
        else []) := by
      unfold apply_border
      rw [hb, hfg]
      rfl
    rw [e2, tl_eq, tr_eq, bl_eq, br_eq, h_eq, v_eq] at hl
    have hbfg : ∀ xs, visible_width (([] : List Char) ++ xs) =
        visible_width xs := fun xs => by rw [List.nil_append]
    have hb0 : visible_width ([] : List Char) = 0 := rfl
    have hsafe : ∀ X : List Char,
        split_free X (([] : List Char) ++ [vcc] ++ ([] : List Char)) := by
      intro X
      have e3 : ([] : List Char) ++ [vcc] ++ ([] : List Char) = [vcc] := by
        simp
      rw [e3]
      apply split_free_of_safe
      · intro hm
        exact v_bel (List.mem_singleton.mp hm).symm
      · intro c hc
        simp only [List.head?_cons, Option.some_inj] at hc
        subst hc
        exact ⟨v_par, v_al, v_lb, v_rb, v_lp, v_rp⟩
    rcases List.mem_append.mp hl with hl1 | hlbot
    · rcases List.mem_append.mp hl1 with hltop | hlmid
      · by_cases hbt : s.border_top_ = true
        · rw [if_pos hbt] at hltop
          rcases List.mem_singleton.mp hltop with rfl
          exact vw_corner_line [] [] s.border_left_ s.border_right_ tlc trc
            hcc (maxVw L) hbfg hb0 tl_esc tr_esc h_esc tl_w tr_w h_w
        · rw [if_neg hbt] at hltop
          cases hltop
      · rcases List.mem_map.mp hlmid with ⟨l0, hl0, rfl⟩
        exact vw_mid_line [] [] vcc s.border_left_ s.border_right_ L l0 hl0
          hbfg hbfg hb0 (hsafe _) v_esc v_w
    · by_cases hbb : s.border_bottom_ = true
      · rw [if_pos hbb] at hlbot
        rcases List.mem_singleton.mp hlbot with rfl
        exact vw_corner_line [] [] s.border_left_ s.border_right_ blc brc
          hcc (maxVw L) hbfg hb0 bl_esc br_esc h_esc bl_w br_w h_w
      · rw [if_neg hbb] at hlbot
        cases hlbot
  | some rgb =>
    have e2 : apply_border s L =
        (if s.border_top_ then
          [fg_code rgb.1 rgb.2.1 rgb.2.2 ++
            (if s.border_left_ then b.top_left else []) ++
            (List.replicate (maxVw L) b.horizontal).flatten ++
            (if s.border_right_ then b.top_right else []) ++ resetSeq]
        else []) ++
        L.map (fun l =>
          (if s.border_left_ then
            fg_code rgb.1 rgb.2.1 rgb.2.2 ++ b.vertical ++ resetSeq else []) ++
            (l ++ List.replicate (maxVw L - visible_width l) ' ') ++
            (if s.border_right_ then
              fg_code rgb.1 rgb.2.1 rgb.2.2 ++ b.vertical ++ resetSeq
            else [])) ++
        (if s.border_bottom_ then
          [fg_code rgb.1 rgb.2.1 rgb.2.2 ++
            (if s.border_left_ then b.bottom_left else []) ++
            (List.replicate (maxVw L) b.horizontal).flatten ++
            (if s.border_right_ then b.bottom_right else []) ++ resetSeq]
        else []) := by
      unfold apply_border
      rw [hb, hfg]
      rfl
    rw [e2, tl_eq, tr_eq, bl_eq, br_eq, h_eq, v_eq] at hl
    have hbfg : ∀ xs, visible_width (fg_code rgb.1 rgb.2.1 rgb.2.2 ++ xs) =
        visible_width xs := fun xs => vw_fg_prefix _ _ _ xs
    have hb0 : visible_width resetSeq = 0 := vw_reset0
    have hbreset : ∀ xs, visible_width (resetSeq ++ xs) = visible_width xs :=
      fun xs => vw_reset_prefix xs
    have hsafe : ∀ X : List Char,
        split_free X (fg_code rgb.1 rgb.2.1 rgb.2.2 ++ [vcc] ++ resetSeq) := by
      intro X
      apply split_free_of_safe
      · intro hm
        have e3 : fg_code rgb.1 rgb.2.1 rgb.2.2 ++ [vcc] ++ resetSeq =
            fg_code rgb.1 rgb.2.1 rgb.2.2 ++ ([vcc] ++ resetSeq) := by
          simp [List.append_assoc]
        rw [e3] at hm
        rcases List.mem_append.mp hm with hm | hm
        · exact fg_code_no_bel _ _ _ hm
        · rcases List.mem_append.mp hm with hm | hm
          · exact v_bel (List.mem_singleton.mp hm).symm
          · revert hm
            decide
      · intro c hc
        have ehead : (fg_code rgb.1 rgb.2.1 rgb.2.2 ++ [vcc] ++
            resetSeq).head? = some escChar := rfl
        rw [ehead] at hc
        rcases Option.some_inj.mp hc with rfl
        refine ⟨rfl, rfl, ?_, ?_, ?_, ?_⟩ <;> decide
    rcases List.mem_append.mp hl with hl1 | hlbot
    · rcases List.mem_append.mp hl1 with hltop | hlmid
      · by_cases hbt : s.border_top_ = true
        · rw [if_pos hbt] at hltop
          rcases List.mem_singleton.mp hltop with rfl
          exact vw_corner_line _ _ s.border_left_ s.border_right_ tlc trc
            hcc (maxVw L) hbfg hb0 tl_esc tr_esc h_esc tl_w tr_w h_w
        · rw [if_neg hbt] at hltop
          cases hltop
      · rcases List.mem_map.mp hlmid with ⟨l0, hl0, rfl⟩
        exact vw_mid_line _ _ vcc s.border_left_ s.border_right_ L l0 hl0
          hbfg hbreset hb0 (hsafe _) v_esc v_w
    · by_cases hbb : s.border_bottom_ = true
      · rw [if_pos hbb] at hlbot
        rcases List.mem_singleton.mp hlbot with rfl
        exact vw_corner_line _ _ s.border_left_ s.border_right_ blc brc
          hcc (maxVw L) hbfg hb0 bl_esc br_esc h_esc bl_w br_w h_w
      · rw [if_neg hbb] at hlbot
        cases hlbot

end BorderWidth

section NlFree

/-- splitNl never returns the empty list. -/
lemma splitNl_ne_nil (s : List Char) : splitNl s ≠ [] := by
  cases s with
  | nil => simp [splitNl]
  | cons c rest =>
    simp only [splitNl]
    by_cases hc : c = '\n'
    · rw [if_pos hc]
      simp
    · rw [if_neg hc]
      cases h : splitNl rest with
      | nil => simp
      | cons a as => simp

/-- No piece returned by splitNl contains a newline. -/
lemma splitNl_no_nl (s : List Char) : ∀ p ∈ splitNl s, '\n' ∉ p := by
  induction s with
  | nil =>
    intro p hp
    rcases List.mem_singleton.mp hp with rfl
    simp
  | cons c rest ih =>
    intro p hp
    simp only [splitNl] at hp
    by_cases hc : c = '\n'
    · rw [if_pos hc] at hp
      rcases List.mem_cons.mp hp with rfl | hp
      · simp
      · exact ih p hp
    · rw [if_neg hc] at hp
      cases h : splitNl rest with
      | nil => exact absurd h (splitNl_ne_nil rest)
      | cons a as =>
        rw [h] at hp
        rcases List.mem_cons.mp hp with rfl | hp
        · intro hm
          rcases List.mem_cons.mp hm with rfl | hm
          · exact hc rfl
          · exact ih a (h ▸ List.mem_cons_self a as) hm
        · exact ih p (h ▸ List.mem_cons_of_mem a hp)

/-- A newline-free line splits to itself. -/
lemma splitNl_self_of_no_nl {l : List Char} (h : '\n' ∉ l) :
    splitNl l = [l] := by
  induction l with
  | nil => rfl
  | cons c rest ih =>
    have hc : c ≠ '\n' := fun he => h (he ▸ List.mem_cons_self c rest)
    simp only [splitNl, if_neg hc]
    rw [ih (fun hm => h (List.mem_cons_of_mem c hm))]

/-- Splitting after a newline-free prefix followed by an explicit newline. -/
lemma splitNl_append_cons {l : List Char} (rest : List Char)
    (h : '\n' ∉ l) : splitNl (l ++ '\n' :: rest) = l :: splitNl rest := by
  induction l with
  | nil => simp [splitNl]
  | cons c cs ih =>
    have hc : c ≠ '\n' := fun he => h (he ▸ List.mem_cons_self c cs)
    simp only [List.cons_append, splitNl, if_neg hc, List.append_eq]
    rw [ih (fun hm => h (List.mem_cons_of_mem c hm))]

/-- splitNl inverts joinNl on nonempty lists of newline-free lines. -/
lemma splitNl_joinNl : ∀ L : List (List Char), L ≠ [] →
    (∀ l ∈ L, '\n' ∉ l) → splitNl (joinNl L) = L := by
  intro L
  induction L with
  | nil => intro h _; exact absurd rfl h
  | cons a as ih =>
    intro _ hnl
    cases as with
    | nil =>
      show splitNl (joinNl [a]) = [a]
      exact splitNl_self_of_no_nl (hnl a (List.mem_singleton.mpr rfl))
    | cons b bs =>
      show splitNl (a ++ '\n' :: joinNl (b :: bs)) = a :: (b :: bs)
      rw [splitNl_append_cons _ (hnl a (List.mem_cons_self a _))]
      rw [ih (by simp) (fun l hl => hnl l (List.mem_cons_of_mem a hl))]

/-- Membership in a boolean-guarded list. -/
lemma mem_if_list {c : Bool} {A : List Char} {x : Char}
    (h : x ∈ (if c then A else [])) : x ∈ A := by
  cases c with
  | false => cases h
  | true => exact h

/-- truncGo only emits characters of its input. -/
lemma mem_truncGo {x : Char} : ∀ (fuel : Nat) (w : Int) (cur : Nat)
    (s : List Char), x ∈ truncGo fuel w cur s → x ∈ s := by
  intro fuel
  induction fuel with
  | zero => intro w cur s h; cases h
  | succ fuel ih =>
    intro w cur s h
    cases s with
    | nil => cases h
    | cons c rest =>
      simp only [truncGo] at h
      cases hm : ansiLen (c :: rest) with
      | some n =>
        rw [hm] at h
        rcases List.mem_append.mp h with h | h
        · exact List.mem_of_mem_take h
        · exact List.mem_of_mem_drop (ih _ _ _ h)
      | none =>
        rw [hm] at h
        by_cases hw : (cur + char_width c : Int) > w
        · rw [if_pos hw] at h
          cases h
        · rw [if_neg hw] at h
          rcases List.mem_cons.mp h with rfl | h
          · exact List.mem_cons_self _ _
          · exact List.mem_cons_of_mem _ (ih _ _ _ h)

/-- truncate only emits characters of its input. -/
lemma mem_truncate {x : Char} {s : List Char} {w : Int}
    (h : x ∈ truncate s w) : x ∈ s := by
  unfold truncate at h
  by_cases hw : w ≤ 0
  · rw [if_pos hw] at h
    cases h
  · rw [if_neg hw] at h
    exact mem_truncGo _ _ _ _ h

/-- pad_right only adds spaces. -/
lemma mem_pad_right {x : Char} {s : List Char} {w : Int}
    (h : x ∈ pad_right s w) : x ∈ s ∨ x = ' ' := by
  unfold pad_right at h
  by_cases hw : (visible_width s : Int) ≥ w
  · rw [if_pos hw] at h
    exact Or.inl h
  · rw [if_neg hw] at h
    rcases List.mem_append.mp h with h | h
    · exact Or.inl h
    · exact Or.inr (List.eq_of_mem_replicate h)

/-- No newline inside a background color code. -/
lemma bg_code_no_nl (r g b : Nat) : '\n' ∉ bg_code r g b := by
  intro hm
  have e : bg_code r g b = escChar ::
      '[' :: ((['4', '8', ';', '2', ';'] ++ natChars r ++ [';'] ++
        natChars g ++ [';'] ++ natChars b) ++ ['m']) := by
    simp [bg_code, escChar, List.append_assoc]
  rw [e] at hm
  rcases List.mem_cons.mp hm with hq | hm
  · exact absurd hq (by decide)
  rcases List.mem_cons.mp hm with hq | hm
  · exact absurd hq (by decide)
  rcases List.mem_append.mp hm with hm | hm
  · have := color_params _ r g b (by decide) '\n' hm
    exact absurd this (by decide)
  · rcases List.mem_singleton.mp hm with hq
    exact absurd hq (by decide)

/-- No newline among the decoration and color codes of a style. -/
lemma buildCodes_no_nl (s : Style) : '\n' ∉ buildCodes s := by
  intro hm
  unfold buildCodes at hm
  rcases List.mem_append.mp hm with hm | hm
  · rcases List.mem_append.mp hm with hm | hm
    · rcases List.mem_append.mp hm with hm | hm
      · rcases List.mem_append.mp hm with hm | hm
        · rcases List.mem_append.mp hm with hm | hm
          · rcases List.mem_append.mp hm with hm | hm
            · rcases List.mem_append.mp hm with hm | hm
              · exact absurd (mem_if_list hm) (by decide)
              · exact absurd (mem_if_list hm) (by decide)
            · exact absurd (mem_if_list hm) (by decide)
          · exact absurd (mem_if_list hm) (by decide)
        · exact absurd (mem_if_list hm) (by decide)
      · exact absurd (mem_if_list hm) (by decide)
    · cases hfgc : s.fg_color_ with
      | none =>
        rw [hfgc] at hm
        cases hm
      | some rgb =>
        rw [hfgc] at hm
        exact fg_code_no_nl rgb.1 rgb.2.1 rgb.2.2 hm
  · cases hbgc : s.bg_color_ with
    | none =>
      rw [hbgc] at hm
      cases hm
    | some rgb =>
      rw [hbgc] at hm
      exact bg_code_no_nl rgb.1 rgb.2.1 rgb.2.2 hm

/-- Newline-freeness of every line after _apply_wrap (true for any input
whose lines are newline-free, and in particular unconditionally after
splitting). -/
lemma apply_wrap_no_nl (s : Style) (L : List (List Char))
    (hL : ∀ l ∈ L, '\n' ∉ l) : ∀ l ∈ apply_wrap s L, '\n' ∉ l := by
  intro l hl
  unfold apply_wrap at hl
  by_cases hw : s.width_ ≤ 0
  · rw [if_pos hw] at hl
    exact hL l hl
  · rw [if_neg hw] at hl
    by_cases hcw : (s.width_ - s.padding_left_ - s.padding_right_ -
        (if s.border_.isSome ∧ s.border_left_ then 1 else 0) -
        (if s.border_.isSome ∧ s.border_right_ then 1 else 0)) ≤ 0
    · rw [if_pos hcw] at hl
      exact hL l hl
    · rw [if_neg hcw] at hl
      rcases List.mem_flatten.mp hl with ⟨blk, hblk, hlb⟩
      rcases List.mem_map.mp hblk with ⟨l0, _, rfl⟩
      exact splitNl_no_nl _ l hlb

/-- Newline-freeness is preserved by _apply_padding. -/
lemma apply_padding_no_nl (s : Style) (L : List (List Char))
    (hL : ∀ l ∈ L, '\n' ∉ l) : ∀ l ∈ apply_padding s L, '\n' ∉ l := by
  intro l hl
  simp only [apply_padding] at hl
  have step1 : ∀ l ∈ (if s.padding_left_ > 0 ∨ s.padding_right_ > 0 then
      L.map (fun l => List.replicate s.padding_left_.toNat ' ' ++ l ++
        List.replicate s.padding_right_.toNat ' ')
      else L), '\n' ∉ l := by
    intro l hl
    by_cases hg : s.padding_left_ > 0 ∨ s.padding_right_ > 0
    · rw [if_pos hg] at hl
      rcases List.mem_map.mp hl with ⟨l0, hl0, rfl⟩
      intro hm
      rcases List.mem_append.mp hm with hm | hm
      · rcases List.mem_append.mp hm with hm | hm
        · exact absurd (List.eq_of_mem_replicate hm) (by decide)
        · exact hL l0 hl0 hm
      · exact absurd (List.eq_of_mem_replicate hm) (by decide)
    · rw [if_neg hg] at hl
      exact hL l hl
  have hblank : ∀ (w : Nat), '\n' ∉ List.replicate w ' ' := by
    intro w hm
    exact absurd (List.eq_of_mem_replicate hm) (by decide)
  by_cases hg2 : s.padding_top_ > 0
  · rw [if_pos hg2] at hl
    by_cases hg3 : s.padding_bottom_ > 0
    · rw [if_pos hg3] at hl
      rcases List.mem_append.mp hl with hl | hl
      · rcases List.mem_append.mp hl with hl | hl
        · exact (List.eq_of_mem_replicate hl) ▸ hblank _
        · exact step1 l hl
      · exact (List.eq_of_mem_replicate hl) ▸ hblank _
    · rw [if_neg hg3] at hl
      rcases List.mem_append.mp hl with hl | hl
      · exact (List.eq_of_mem_replicate hl) ▸ hblank _
      · exact step1 l hl
  · rw [if_neg hg2] at hl
    by_cases hg3 : s.padding_bottom_ > 0
    · rw [if_pos hg3] at hl
      rcases List.mem_append.mp hl with hl | hl
      · exact step1 l hl
      · exact (List.eq_of_mem_replicate hl) ▸ hblank _
    · rw [if_neg hg3] at hl
      exact step1 l hl

/-- Newline-freeness is preserved by _apply_width. -/
lemma apply_width_no_nl (s : Style) (L : List (List Char))
    (hL : ∀ l ∈ L, '\n' ∉ l) : ∀ l ∈ apply_width s L, '\n' ∉ l := by
  intro l hl
  unfold apply_width at hl
  by_cases hw : s.width_ ≤ 0
  · rw [if_pos hw] at hl
    exact hL l hl
  · rw [if_neg hw] at hl
    rcases List.mem_map.mp hl with ⟨l0, hl0, rfl⟩
    by_cases h1 : (visible_width l0 : Int) <
        (if s.border_.isSome then
          max (s.width_ - (if s.border_left_ then 1 else 0) -
            (if s.border_right_ then 1 else 0)) 0
        else s.width_)
    · rw [if_pos h1]
      intro hm
      rcases mem_pad_right hm with hm | hm
      · exact hL l0 hl0 hm
      · exact absurd hm (by decide)
    · rw [if_neg h1]
      by_cases h2 : (visible_width l0 : Int) >
          (if s.border_.isSome then
            max (s.width_ - (if s.border_left_ then 1 else 0) -
              (if s.border_right_ then 1 else 0)) 0
          else s.width_)
      · rw [if_pos h2]
        intro hm
        exact hL l0 hl0 (mem_truncate hm)
      · rw [if_neg h2]
        exact hL l0 hl0

/-- Newline-freeness is preserved by _apply_height. -/
lemma apply_height_no_nl (s : Style) (L : List (List Char))
    (hL : ∀ l ∈ L, '\n' ∉ l) : ∀ l ∈ apply_height s L, '\n' ∉ l := by
  intro l hl
  unfold apply_height at hl
  by_cases hh : s.height_ ≤ 0
  · rw [if_pos hh] at hl
    exact hL l hl
  · rw [if_neg hh] at hl
    by_cases h1 : (L.length : Int) <
        (if s.border_.isSome then
          max (s.height_ - (if s.border_top_ then 1 else 0) -
            (if s.border_bottom_ then 1 else 0)) 0
        else s.height_)
    · rw [if_pos h1] at hl
      rcases List.mem_append.mp hl with hl | hl
      · exact hL l hl
      · have := List.eq_of_mem_replicate hl
        subst this
        intro hm
        exact absurd (List.eq_of_mem_replicate hm) (by decide)
    · rw [if_neg h1] at hl
      by_cases h2 : (L.length : Int) >
          (if s.border_.isSome then
            max (s.height_ - (if s.border_top_ then 1 else 0) -
              (if s.border_bottom_ then 1 else 0)) 0
          else s.height_)
      · rw [if_pos h2] at hl
        exact hL l (List.mem_of_mem_take hl)
      · rw [if_neg h2] at hl
        exact hL l hl

/-- Newline-freeness is preserved by _apply_align. -/
lemma apply_align_no_nl (s : Style) (L : List (List Char))
    (hL : ∀ l ∈ L, '\n' ∉ l) : ∀ l ∈ apply_align s L, '\n' ∉ l := by
  intro l hl
  unfold apply_align at hl
  by_cases ha : s.align_ = 0
  · rw [if_pos ha] at hl
    exact hL l hl
  · rw [if_neg ha] at hl
    rcases List.mem_map.mp hl with ⟨l0, hl0, rfl⟩
    by_cases hg : ((maxVw L : Int) - (visible_width l0 : Int)) ≤ 0
    · rw [if_pos hg]
      exact hL l0 hl0
    · rw [if_neg hg]
      intro hm
      rcases List.mem_append.mp hm with hm | hm
      · rcases List.mem_append.mp hm with hm | hm
        · exact absurd (List.eq_of_mem_replicate hm) (by decide)
        · exact hL l0 hl0 hm
      · exact absurd (List.eq_of_mem_replicate hm) (by decide)

/-- Newline-freeness of every line of the core render stages. -/
lemma renderCore_no_nl (s : Style) (content : List Char) :
    ∀ l ∈ renderCore s content, '\n' ∉ l := by
  intro l hl
  simp only [renderCore] at hl
  have h1 := apply_wrap_no_nl s (splitNl content) (splitNl_no_nl content)
  have h2 := apply_padding_no_nl s _ h1
  have h3 := apply_width_no_nl s _ h2
  have h4 := apply_height_no_nl s _ h3
  have h5 := apply_align_no_nl s _ h4
  set l5 := apply_align s (apply_height s (apply_width s (apply_padding s
    (apply_wrap s (splitNl content))))) with hl5
  have h6 : ∀ l ∈ (if l5.length > 1 then
      l5.map (fun l => pad_right l ((maxVw l5 : Nat) : Int)) else l5),
      '\n' ∉ l := by
    intro l hl
    by_cases hg : l5.length > 1
    · rw [if_pos hg] at hl
      rcases List.mem_map.mp hl with ⟨l0, hl0, rfl⟩
      intro hm
      rcases mem_pad_right hm with hm | hm
      · exact h5 l0 hl0 hm
      · exact absurd hm (by decide)
    · rw [if_neg hg] at hl
      exact h5 l hl
  set l6 := (if l5.length > 1 then
      l5.map (fun l => pad_right l ((maxVw l5 : Nat) : Int)) else l5) with hl6
  have h7 : ∀ l ∈ (if (buildCodes s).isEmpty then l6
      else l6.map (fun l => buildCodes s ++ l ++ resetSeq)), '\n' ∉ l := by
    intro l hl
    by_cases hg : (buildCodes s).isEmpty
    · rw [if_pos hg] at hl
      exact h6 l hl
    · rw [if_neg hg] at hl
      rcases List.mem_map.mp hl with ⟨l0, hl0, rfl⟩
      intro hm
      rcases List.mem_append.mp hm with hm | hm
      · rcases List.mem_append.mp hm with hm | hm
        · exact buildCodes_no_nl s hm
        · exact h6 l0 hl0 hm
      · exact absurd hm (by decide)
  set l7 := (if (buildCodes s).isEmpty then l6
      else l6.map (fun l => buildCodes s ++ l ++ resetSeq)) with hl7
  by_cases hg : s.max_height_ > 0 ∧ (l7.length : Int) > s.max_height_
  · rw [if_pos hg] at hl
    exact h7 l (List.mem_of_mem_take hl)
  · rw [if_neg hg] at hl
    exact h7 l hl

/-- Newline-freeness of a corner border line. -/
lemma no_nl_corner (bfg breset : List Char) (bl br : Bool) (cL cR hcg : Char)
    (W : Nat) (hbfg : '\n' ∉ bfg) (hbrs : '\n' ∉ breset) (hcl : cL ≠ '\n')
    (hcr : cR ≠ '\n') (hh : hcg ≠ '\n') :
    '\n' ∉ bfg ++ (if bl then [cL] else []) ++
      (List.replicate W [hcg]).flatten ++ (if br then [cR] else []) ++
      breset := by
  intro hm
  rcases List.mem_append.mp hm with hm | hm
  · rcases List.mem_append.mp hm with hm | hm
    · rcases List.mem_append.mp hm with hm | hm
      · rcases List.mem_append.mp hm with hm | hm
        · exact hbfg hm
        · exact hcl (List.mem_singleton.mp (mem_if_list hm)).symm
      · rw [flatten_replicate_singleton] at hm
        exact hh (List.eq_of_mem_replicate hm).symm
    · exact hcr (List.mem_singleton.mp (mem_if_list hm)).symm
  · exact hbrs hm

/-- Newline-freeness of a bordered content line. -/
lemma no_nl_mid (bfg breset : List Char) (vcg : Char) (bl br : Bool)
    (l : List Char) (k : Nat) (hbfg : '\n' ∉ bfg) (hbrs : '\n' ∉ breset)
    (hv : vcg ≠ '\n') (hl : '\n' ∉ l) :
    '\n' ∉ (if bl then bfg ++ [vcg] ++ breset else []) ++
      (l ++ List.replicate k ' ') ++
      (if br then bfg ++ [vcg] ++ breset else []) := by
  have hside : '\n' ∉ bfg ++ [vcg] ++ breset := by
    intro hm
    rcases List.mem_append.mp hm with hm | hm
    · rcases List.mem_append.mp hm with hm | hm
      · exact hbfg hm
      · exact hv (List.mem_singleton.mp hm).symm
    · exact hbrs hm
  intro hm
  rcases List.mem_append.mp hm with hm | hm
  · rcases List.mem_append.mp hm with hm | hm
    · exact hside (mem_if_list hm)
    · rcases List.mem_append.mp hm with hm | hm
      · exact hl hm
      · exact absurd (List.eq_of_mem_replicate hm) (by decide)
  · exact hside (mem_if_list hm)

/-- Newline-freeness is preserved by _apply_border when the glyphs are
plain. -/
lemma apply_border_no_nl {s : Style} {b : Border} (hb : s.border_ = some b)
    (hpb : plain_border b = true) (L : List (List Char))
    (hL : ∀ l ∈ L, '\n' ∉ l) : ∀ l ∈ apply_border s L, '\n' ∉ l := by
  simp only [plain_border, Bool.and_eq_true] at hpb
  obtain ⟨⟨⟨⟨⟨htl, htr⟩, hblg⟩, hbrg⟩, hhg⟩, hvg⟩ := hpb
  obtain ⟨tlc, tl_eq, -, -, -, -, -, -, -, tl_nl, -, -⟩ := plain_glyph_elim htl
  obtain ⟨trc, tr_eq, -, -, -, -, -, -, -, tr_nl, -, -⟩ := plain_glyph_elim htr
  obtain ⟨blc, bl_eq, -, -, -, -, -, -, -, bl_nl, -, -⟩ := plain_glyph_elim hblg
  obtain ⟨brc, br_eq, -, -, -, -, -, -, -, br_nl, -, -⟩ := plain_glyph_elim hbrg
  obtain ⟨hcc, h_eq, -, -, -, -, -, -, -, h_nl, -, -⟩ := plain_glyph_elim hhg
  obtain ⟨vcc, v_eq, -, -, -, -, -, -, -, v_nl, -, -⟩ := plain_glyph_elim hvg
  intro l hl
  cases hfg : s.border_fg_color_ with
  | none =>
    have e2 : apply_border s L =
        (if s.border_top_ then
          [([] : List Char) ++ (if s.border_left_ then b.top_left else []) ++
            (List.replicate (maxVw L) b.horizontal).flatten ++
            (if s.border_right_ then b.top_right else []) ++ ([] : List Char)]
        else []) ++
        L.map (fun l =>
          (if s.border_left_ then
            ([] : List Char) ++ b.vertical ++ ([] : List Char) else []) ++
            (l ++ List.replicate (maxVw L - visible_width l) ' ') ++
            (if s.border_right_ then
              ([] : List Char) ++ b.vertical ++ ([] : List Char) else [])) ++
        (if s.border_bottom_ then
          [([] : List Char) ++
            (if s.border_left_ then b.bottom_left else []) ++
            (List.replicate (maxVw L) b.horizontal).flatten ++
            (if s.border_right_ then b.bottom_right else []) ++
            ([] : List Char)]
        else []) := by
      unfold apply_border
      rw [hb, hfg]
      rfl
    rw [e2, tl_eq, tr_eq, bl_eq, br_eq, h_eq, v_eq] at hl
    have hnil : '\n' ∉ ([] : List Char) := by simp
    rcases List.mem_append.mp hl with hl1 | hlbot
    · rcases List.mem_append.mp hl1 with hltop | hlmid
      · by_cases hbt : s.border_top_ = true
        · rw [if_pos hbt] at hltop
          rcases List.mem_singleton.mp hltop with rfl
          exact no_nl_corner [] [] s.border_left_ s.border_right_ tlc trc hcc
            (maxVw L) hnil hnil tl_nl tr_nl h_nl
        · rw [if_neg hbt] at hltop
          cases hltop
      · rcases List.mem_map.mp hlmid with ⟨l0, hl0, rfl⟩
        exact no_nl_mid [] [] vcc s.border_left_ s.border_right_ l0 _ hnil
          hnil v_nl (hL l0 hl0)
    · by_cases hbb : s.border_bottom_ = true
      · rw [if_pos hbb] at hlbot
        rcases List.mem_singleton.mp hlbot with rfl
        exact no_nl_corner [] [] s.border_left_ s.border_right_ blc brc hcc
          (maxVw L) hnil hnil bl_nl br_nl h_nl
      · rw [if_neg hbb] at hlbot
        cases hlbot
  | some rgb =>
    have e2 : apply_border s L =
        (if s.border_top_ then
          [fg_code rgb.1 rgb.2.1 rgb.2.2 ++
            (if s.border_left_ then b.top_left else []) ++
            (List.replicate (maxVw L) b.horizontal).flatten ++
            (if s.border_right_ then b.top_right else []) ++ resetSeq]
        else []) ++
        L.map (fun l =>
          (if s.border_left_ then
            fg_code rgb.1 rgb.2.1 rgb.2.2 ++ b.vertical ++ resetSeq else []) ++
            (l ++ List.replicate (maxVw L - visible_width l) ' ') ++
            (if s.border_right_ then
              fg_code rgb.1 rgb.2.1 rgb.2.2 ++ b.vertical ++ resetSeq
            else [])) ++
        (if s.border_bottom_ then
          [fg_code rgb.1 rgb.2.1 rgb.2.2 ++
            (if s.border_left_ then b.bottom_left else []) ++
            (List.replicate (maxVw L) b.horizontal).flatten ++
            (if s.border_right_ then b.bottom_right else []) ++ resetSeq]
        else []) := by
      unfold apply_border
      rw [hb, hfg]
      rfl
    rw [e2, tl_eq, tr_eq, bl_eq, br_eq, h_eq, v_eq] at hl
    have hfgnl : '\n' ∉ fg_code rgb.1 rgb.2.1 rgb.2.2 :=
      fg_code_no_nl rgb.1 rgb.2.1 rgb.2.2
    have hrsnl : '\n' ∉ resetSeq := by decide
    rcases List.mem_append.mp hl with hl1 | hlbot
    · rcases List.mem_append.mp hl1 with hltop | hlmid
      · by_cases hbt : s.border_top_ = true
        · rw [if_pos hbt] at hltop
          rcases List.mem_singleton.mp hltop with rfl
          exact no_nl_corner _ _ s.border_left_ s.border_right_ tlc trc hcc
            (maxVw L) hfgnl hrsnl tl_nl tr_nl h_nl
        · rw [if_neg hbt] at hltop
          cases hltop
      · rcases List.mem_map.mp hlmid with ⟨l0, hl0, rfl⟩
        exact no_nl_mid _ _ vcc s.border_left_ s.border_right_ l0 _ hfgnl
          hrsnl v_nl (hL l0 hl0)
    · by_cases hbb : s.border_bottom_ = true
      · rw [if_pos hbb] at hlbot
        rcases List.mem_singleton.mp hlbot with rfl
        exact no_nl_corner _ _ s.border_left_ s.border_right_ blc brc hcc
          (maxVw L) hfgnl hrsnl bl_nl br_nl h_nl
      · rw [if_neg hbb] at hlbot
        cases hlbot

/-- Newline-freeness is preserved by _apply_margin. -/
lemma apply_margin_no_nl (s : Style) (L : List (List Char))
    (hL : ∀ l ∈ L, '\n' ∉ l) : ∀ l ∈ apply_margin s L, '\n' ∉ l := by
  intro l hl
  simp only [apply_margin] at hl
  have step1 : ∀ l ∈ (if s.margin_left_ > 0 ∨ s.margin_right_ > 0 then
      L.map (fun l => List.replicate s.margin_left_.toNat ' ' ++ l ++
        List.replicate s.margin_right_.toNat ' ')
      else L), '\n' ∉ l := by
    intro l hl
    by_cases hg : s.margin_left_ > 0 ∨ s.margin_right_ > 0
    · rw [if_pos hg] at hl
      rcases List.mem_map.mp hl with ⟨l0, hl0, rfl⟩
      intro hm
      rcases List.mem_append.mp hm with hm | hm
      · rcases List.mem_append.mp hm with hm | hm
        · exact absurd (List.eq_of_mem_replicate hm) (by decide)
        · exact hL l0 hl0 hm
      · exact absurd (List.eq_of_mem_replicate hm) (by decide)
    · rw [if_neg hg] at hl
      exact hL l hl
  by_cases hg2 : s.margin_top_ > 0
  · rw [if_pos hg2] at hl
    by_cases hg3 : s.margin_bottom_ > 0
    · rw [if_pos hg3] at hl
      rcases List.mem_append.mp hl with hl | hl
      · rcases List.mem_append.mp hl with hl | hl
        · rw [List.eq_of_mem_replicate hl]
          simp
        · exact step1 l hl
      · rw [List.eq_of_mem_replicate hl]
        simp
    · rw [if_neg hg3] at hl
      rcases List.mem_append.mp hl with hl | hl
      · rw [List.eq_of_mem_replicate hl]
        simp
      · exact step1 l hl
  · rw [if_neg hg2] at hl
    by_cases hg3 : s.margin_bottom_ > 0
    · rw [if_pos hg3] at hl
      rcases List.mem_append.mp hl with hl | hl
      · exact step1 l hl
      · rw [List.eq_of_mem_replicate hl]
        simp
    · rw [if_neg hg3] at hl
      exact step1 l hl

/-- With zero top/bottom margins, _apply_margin maps lines of one width to
lines of one width. -/
lemma apply_margin_uniform (s : Style) (hmt : ¬s.margin_top_ > 0)
    (hmb : ¬s.margin_bottom_ > 0) (L : List (List Char)) (w : Nat)
    (hW : ∀ l ∈ L, visible_width l = w) :
    ∃ w', ∀ l ∈ apply_margin s L, visible_width l = w' := by
  simp only [apply_margin]
  rw [if_neg hmt, if_neg hmb]
  by_cases hg : s.margin_left_ > 0 ∨ s.margin_right_ > 0
  · rw [if_pos hg]
    refine ⟨s.margin_left_.toNat + w + s.margin_right_.toNat, ?_⟩
    intro l hl
    rcases List.mem_map.mp hl with ⟨l0, hl0, rfl⟩
    have e : List.replicate s.margin_left_.toNat ' ' ++ l0 ++
        List.replicate s.margin_right_.toNat ' ' =
        List.replicate s.margin_left_.toNat ' ' ++
          (l0 ++ List.replicate s.margin_right_.toNat ' ') := by
      simp [List.append_assoc]
    rw [e, vw_plain_prefix _ (fun hm =>
      absurd (List.eq_of_mem_replicate hm) (by decide)),
      sum_width_replicate _ _ (by decide),
      visible_width_append _ _ (split_free_spaces l0 _), vw_spaces, hW l0 hl0]
    omega
  · rw [if_neg hg]
    exact ⟨w, hW⟩

/-- renderLines without a max-width cap is border-then-margin over the core
stages. -/
lemma renderLines_no_maxw (s : Style) (content : List Char)
    (hmw : ¬s.max_width_ > 0) :
    renderLines s content =
      apply_margin s (apply_border s (renderCore s content)) := by
  simp only [renderLines]
  rw [if_neg hmw]

end NlFree

section WordWrapProofs

/-- Sum of unit character widths is the length. -/
lemma sum_ones {l : List Char} (h : ∀ c ∈ l, char_width c = 1) :
    (l.map char_width).sum = l.length := by
  induction l with
  | nil => rfl
  | cons c cs ih =>
    simp only [List.map_cons, List.sum_cons, List.length_cons,
      h c (List.mem_cons_self c cs),
      ih (fun x hx => h x (List.mem_cons_of_mem c hx))]
    omega

/-- Visible width of an ESC-free string of unit-width characters is its
length. -/
lemma vw_unit {l : List Char} (hesc : escChar ∉ l)
    (hu : ∀ c ∈ l, char_width c = 1) : visible_width l = l.length := by
  rw [vw_no_esc hesc, sum_ones hu]

/-- An ESC-free left part never splits an escape sequence. -/
lemma split_free_of_no_esc (a b : List Char) (h : escChar ∉ a) :
    split_free a b := by
  intro i hi
  rw [List.drop_append_of_le_length (Nat.le_of_lt hi)]
  cases hd : a.drop i with
  | nil =>
    have hlen := congrArg List.length hd
    simp only [List.length_drop, List.length_nil] at hlen
    omega
  | cons c cs =>
    have hc : c ∈ a :=
      List.mem_of_mem_drop (hd ▸ List.mem_cons_self c cs)
    have hne : c ≠ escChar := fun he => h (he ▸ hc)
    rw [List.cons_append, ansiLen_head_ne_esc hne, ansiLen_head_ne_esc hne]

/-- Visible width is additive after an ESC-free left part. -/
lemma vw_append_no_esc (a b : List Char) (h : escChar ∉ a) :
    visible_width (a ++ b) = visible_width a + visible_width b :=
  visible_width_append a b (split_free_of_no_esc a b h)

/-- Characters of split pieces come from the split string. -/
lemma mem_splitNl_chars : ∀ (s : List Char), ∀ p ∈ splitNl s, ∀ c ∈ p,
    c ∈ s := by
  intro s
  induction s with
  | nil =>
    intro p hp c hc
    rcases List.mem_singleton.mp hp with rfl
    cases hc
  | cons c0 rest ih =>
    intro p hp c hc
    simp only [splitNl] at hp
    by_cases h0 : c0 = '\n'
    · rw [if_pos h0] at hp
      rcases List.mem_cons.mp hp with rfl | hp
      · cases hc
      · exact List.mem_cons_of_mem c0 (ih p hp c hc)
    · rw [if_neg h0] at hp
      cases hsp : splitNl rest with
      | nil => exact absurd hsp (splitNl_ne_nil rest)
      | cons a as =>
        rw [hsp] at hp
        rcases List.mem_cons.mp hp with rfl | hp
        · rcases List.mem_cons.mp hc with rfl | hc
          · exact List.mem_cons_self c rest
          · exact List.mem_cons_of_mem c0
              (ih a (hsp ▸ List.mem_cons_self a as) c hc)
        · exact List.mem_cons_of_mem c0
            (ih p (hsp ▸ List.mem_cons_of_mem a hp) c hc)

/-- The finditer scan finds nothing in an ESC-free string. -/
lemma seqsGo_no_esc : ∀ (fuel : Nat) (s : List Char), escChar ∉ s →
    seqsGo fuel s = [] := by
  intro fuel
  induction fuel with
  | zero => intro s _; rfl
  | succ fuel ih =>
    intro s hs
    cases s with
    | nil => rfl
    | cons c rest =>
      have hc : c ≠ escChar := fun he => hs (he ▸ List.mem_cons_self c rest)
      simp only [seqsGo, ansiLen_head_ne_esc hc]
      exact ih rest (fun hm => hs (List.mem_cons_of_mem c hm))

/-- Tracking styling over an ESC-free word changes nothing. -/
lemma updateActive_no_esc {a : List (List Char)} {word : List Char}
    (h : escChar ∉ word) : updateActive a word = a := by
  unfold updateActive ansi_seqs
  rw [seqsGo_no_esc _ _ h]
  rfl

/-- Characters of word tokens come from the accumulator or the input. -/
lemma swGo_chars : ∀ (fuel : Nat) (cur rem : List Char), ∀ tok ∈
    swGo fuel cur rem, ∀ x ∈ tok, x ∈ cur ∨ x ∈ rem := by
  intro fuel
  induction fuel with
  | zero =>
    intro cur rem tok htok x hx
    simp only [swGo] at htok
    by_cases hc : cur.isEmpty
    · rw [if_pos hc] at htok
      cases htok
    · rw [if_neg hc] at htok
      rcases List.mem_singleton.mp htok with rfl
      exact Or.inl hx
  | succ fuel ih =>
    intro cur rem tok htok x hx
    cases rem with
    | nil =>
      simp only [swGo] at htok
      by_cases hc : cur.isEmpty
      · rw [if_pos hc] at htok
        cases htok
      · rw [if_neg hc] at htok
        rcases List.mem_singleton.mp htok with rfl
        exact Or.inl hx
    | cons c rest =>
      cases rest with
      | nil =>
        cases hm : ansiLen [c] with
        | some n =>
          simp only [swGo, hm] at htok
          rcases ih _ _ tok htok x hx with hcy | hcy
          · rcases List.mem_append.mp hcy with hcy | hcy
            · exact Or.inl hcy
            · exact Or.inr (List.mem_of_mem_take hcy)
          · exact Or.inr (List.mem_of_mem_drop hcy)
        | none =>
          by_cases hsp : c = ' '
          · simp only [swGo, hm, if_pos hsp] at htok
            rcases ih _ _ tok htok x hx with hcy | hcy
            · rcases List.mem_append.mp hcy with hcy | hcy
              · exact Or.inl hcy
              · rcases List.mem_singleton.mp hcy with rfl
                right
                rw [hsp]
                exact List.mem_cons_self _ _
            · cases hcy
          · simp only [swGo, hm, if_neg hsp] at htok
            rcases ih _ _ tok htok x hx with hcy | hcy
            · rcases List.mem_append.mp hcy with hcy | hcy
              · exact Or.inl hcy
              · rcases List.mem_singleton.mp hcy with rfl
                exact Or.inr (List.mem_cons_self _ _)
            · exact Or.inr (List.mem_cons_of_mem c hcy)
      | cons r1 rrest =>
        cases hm : ansiLen (c :: r1 :: rrest) with
        | some n =>
          simp only [swGo, hm] at htok
          rcases ih _ _ tok htok x hx with hcy | hcy
          · rcases List.mem_append.mp hcy with hcy | hcy
            · exact Or.inl hcy
            · exact Or.inr (List.mem_of_mem_take hcy)
          · exact Or.inr (List.mem_of_mem_drop hcy)
        | none =>
          by_cases hsp : c = ' '
          · by_cases hnx : (match ansiLen (r1 :: rrest) with
                | some m =>
                  match List.drop m (r1 :: rrest) with
                  | d :: _ => d
                  | [] => r1
                | none => r1) ≠ ' '
            · simp only [swGo, hm, if_pos hsp, if_pos hnx] at htok
              rcases List.mem_cons.mp htok with rfl | htok
              · rcases List.mem_append.mp hx with hcy | hcy
                · exact Or.inl hcy
                · rcases List.mem_singleton.mp hcy with rfl
                  right
                  rw [hsp]
                  exact List.mem_cons_self _ _
              · rcases ih _ _ tok htok x hx with hcy | hcy
                · cases hcy
                · exact Or.inr (List.mem_cons_of_mem c hcy)
            · simp only [swGo, hm, if_pos hsp, if_neg hnx] at htok
              rcases ih _ _ tok htok x hx with hcy | hcy
              · rcases List.mem_append.mp hcy with hcy | hcy
                · exact Or.inl hcy
                · rcases List.mem_singleton.mp hcy with rfl
                  right
                  rw [hsp]
                  exact List.mem_cons_self _ _
              · exact Or.inr (List.mem_cons_of_mem c hcy)
          · simp only [swGo, hm, if_neg hsp] at htok
            rcases ih _ _ tok htok x hx with hcy | hcy
            · rcases List.mem_append.mp hcy with hcy | hcy
              · exact Or.inl hcy
              · rcases List.mem_singleton.mp hcy with rfl
                exact Or.inr (List.mem_cons_self _ _)
            · exact Or.inr (List.mem_cons_of_mem c hcy)

/-- Characters of hard-break pieces come from the accumulator or the
input. -/
lemma hbGo_chars : ∀ (fuel : Nat) (w : Int) (cur : List Char) (curw : Nat)
    (rem : List Char), ∀ p ∈ hbGo fuel w cur curw rem, ∀ x ∈ p,
    x ∈ cur ∨ x ∈ rem := by
  intro fuel
  induction fuel with
  | zero =>
    intro w cur curw rem p hp x hx
    simp only [hbGo] at hp
    by_cases hc : cur.isEmpty
    · rw [if_pos hc] at hp
      cases hp
    · rw [if_neg hc] at hp
      rcases List.mem_singleton.mp hp with rfl
      exact Or.inl hx
  | succ fuel ih =>
    intro w cur curw rem p hp x hx
    cases rem with
    | nil =>
      simp only [hbGo] at hp
      by_cases hc : cur.isEmpty
      · rw [if_pos hc] at hp
        cases hp
      · rw [if_neg hc] at hp
        rcases List.mem_singleton.mp hp with rfl
        exact Or.inl hx
    | cons c rest =>
      simp only [hbGo] at hp
      cases hm : ansiLen (c :: rest) with
      | some n =>
        rw [hm] at hp
        rcases ih _ _ _ _ p hp x hx with hcy | hcy
        · rcases List.mem_append.mp hcy with hcy | hcy
          · exact Or.inl hcy
          · exact Or.inr (List.mem_of_mem_take hcy)
        · exact Or.inr (List.mem_of_mem_drop hcy)
      | none =>
        rw [hm] at hp
        by_cases hcond : ((curw + char_width c : Int) > w ∧ ¬cur.isEmpty)
        · rw [if_pos (by
            simp only [Bool.and_eq_true, decide_eq_true_eq,
              Bool.not_eq_true']
            exact ⟨by exact_mod_cast hcond.1, by
              cases hemp : cur.isEmpty with
              | false => rfl
              | true => exact absurd hemp hcond.2⟩)] at hp
          rcases List.mem_cons.mp hp with rfl | hp
          · exact Or.inl hx
          · rcases ih _ _ _ _ p hp x hx with hcy | hcy
            · rcases List.mem_singleton.mp hcy with rfl
              exact Or.inr (List.mem_cons_self _ _)
            · exact Or.inr (List.mem_cons_of_mem c hcy)
        · rw [if_neg (by
            simp only [Bool.and_eq_true, decide_eq_true_eq,
              Bool.not_eq_true']
            intro hand
            exact hcond ⟨by exact_mod_cast hand.1, by
              rw [hand.2]
              simp⟩)] at hp
          rcases ih _ _ _ _ p hp x hx with hcy | hcy
          · rcases List.mem_append.mp hcy with hcy | hcy
            · exact Or.inl hcy
            · rcases List.mem_singleton.mp hcy with rfl
              exact Or.inr (List.mem_cons_self _ _)
          · exact Or.inr (List.mem_cons_of_mem c hcy)

/-- Members of dropLast are members. -/
lemma mem_dropLast_mem : ∀ (l : List (List Char)) (x : List Char),
    x ∈ l.dropLast → x ∈ l := by
  intro l
  induction l with
  | nil => intro x hx; simp at hx
  | cons a l ih =>
    intro x hx
    cases l with
    | nil => simp at hx
    | cons b l2 =>
      rw [List.dropLast_cons₂] at hx
      rcases List.mem_cons.mp hx with rfl | hx
      · exact List.mem_cons_self _ _
      · exact List.mem_cons_of_mem a (ih x hx)

/-- The last element reported by getLast? is a member. -/
lemma getLast_some_mem : ∀ (l : List (List Char)) (x : List Char),
    l.getLast? = some x → x ∈ l := by
  intro l
  induction l with
  | nil => intro x h; simp at h
  | cons a l ih =>
    intro x h
    cases l with
    | nil =>
      simp only [List.getLast?_singleton, Option.some.injEq] at h
      subst h
      exact List.mem_cons_self _ _
    | cons b l2 =>
      rw [List.getLast?_cons_cons] at h
      exact List.mem_cons_of_mem a (ih x h)

/-- Members of dropWhile are members. -/
lemma mem_dropWhile_mem (p : Char → Bool) : ∀ (l : List Char) (x : Char),
    x ∈ l.dropWhile p → x ∈ l := by
  intro l
  induction l with
  | nil => intro x hx; simp at hx
  | cons a l ih =>
    intro x hx
    rw [List.dropWhile_cons] at hx
    by_cases hp : p a = true
    · rw [if_pos hp] at hx
      exact List.mem_cons_of_mem a (ih x hx)
    · rw [if_neg hp] at hx
      exact hx

/-- Hard-break piece lengths stay within the width when the input is ESC-free
with unit-width characters and the accumulated piece already fits. -/
lemma hbGo_len : ∀ (fuel : Nat) (w : Int) (cur rem : List Char),
    1 ≤ w → ((cur.length : Int) ≤ w) → escChar ∉ rem →
    (∀ c ∈ rem, char_width c = 1) →
    ∀ p ∈ hbGo fuel w cur cur.length rem, ((p.length : Int) ≤ w) := by
  intro fuel
  induction fuel with
  | zero =>
    intro w cur rem _ hcur _ _ p hp
    simp only [hbGo] at hp
    by_cases hc : cur.isEmpty
    · rw [if_pos hc] at hp
      cases hp
    · rw [if_neg hc] at hp
      rcases List.mem_singleton.mp hp with rfl
      exact hcur
  | succ fuel ih =>
    intro w cur rem hw hcur hesc hu p hp
    cases rem with
    | nil =>
      simp only [hbGo] at hp
      by_cases hc : cur.isEmpty
      · rw [if_pos hc] at hp
        cases hp
      · rw [if_neg hc] at hp
        rcases List.mem_singleton.mp hp with rfl
        exact hcur
    | cons c rest =>
      have hcne : c ≠ escChar := fun he => hesc (he ▸ List.mem_cons_self c rest)
      have hw1 : char_width c = 1 := hu c (List.mem_cons_self c rest)
      have hesc' : escChar ∉ rest := fun hm => hesc (List.mem_cons_of_mem c hm)
      have hu' : ∀ x ∈ rest, char_width x = 1 :=
        fun x hx => hu x (List.mem_cons_of_mem c hx)
      simp only [hbGo, ansiLen_head_ne_esc hcne] at hp
      by_cases hbig : ((cur.length + char_width c : Int) > w ∧ ¬cur.isEmpty)
      · rw [if_pos (by
          simp only [Bool.and_eq_true, decide_eq_true_eq, Bool.not_eq_true']
          exact ⟨by exact_mod_cast hbig.1, by
            cases hemp : cur.isEmpty with
            | false => rfl
            | true => exact absurd hemp hbig.2⟩)] at hp
        rcases List.mem_cons.mp hp with rfl | hp
        · exact hcur
        · rw [hw1] at hp
          exact ih w [c] rest hw (by simpa using hw) hesc' hu' p hp
      · rw [if_neg (by
          simp only [Bool.and_eq_true, decide_eq_true_eq, Bool.not_eq_true']
          intro hand
          exact hbig ⟨by exact_mod_cast hand.1, by
            rw [hand.2]
            simp⟩)] at hp
        rw [hw1] at hp
        have hlen : cur.length + 1 = (cur ++ [c]).length := by simp
        rw [hlen] at hp
        refine ih w (cur ++ [c]) rest hw ?_ hesc' hu' p hp
        rcases not_and_or.mp hbig with hnb | hne
        · rw [hw1] at hnb
          simp only [List.length_append, List.length_singleton]
          omega
        · cases cur with
          | nil =>
            simp only [List.nil_append, List.length_singleton]
            omega
          | cons a as => exact absurd (not_not.mp hne) (by simp)

/-- Closed form of the hard-break piece loop when no styling is active:
wrapped gains all pieces but the last, the current line becomes the last
piece. -/
lemma pieceFold_spec : ∀ (ps : List (List Char)) (cl : List Char)
    (ws : List (List Char)),
    (pieceFold [] ps cl ws).1 = ws ++ (cl :: ps).dropLast ∧
    some (pieceFold [] ps cl ws).2 = (cl :: ps).getLast? := by
  intro ps
  induction ps with
  | nil =>
    intro cl ws
    constructor
    · simp [pieceFold]
    · simp [pieceFold]
  | cons p ps ih =>
    intro cl ws
    constructor
    · have h1 := (ih p (ws ++ [cl])).1
      simp only [pieceFold, List.nil_append]
      rw [h1]
      simp [List.dropLast, List.append_assoc]
    · have h2 := (ih p (ws ++ [cl])).2
      simp only [pieceFold, List.nil_append]
      rw [h2, List.getLast?_cons_cons]

/-- The shared hard-break snippet preserves the loop invariant when called
with an empty current line and no active styling. -/
lemma wwHard_inv (w : Int) (hw : 1 ≤ w) (P : Char → Prop)
    (hP1 : ∀ c, P c → char_width c = 1) (hP2 : ∀ c, P c → c ≠ escChar)
    (ws : List (List Char))
    (hws : ∀ l ∈ ws, (visible_width l : Int) ≤ w ∧ ∀ c ∈ l, P c)
    (word : List Char) (hword : ∀ c ∈ word, P c) :
    (∀ l ∈ (wwHard w [] ws [] word).1,
      (visible_width l : Int) ≤ w ∧ ∀ c ∈ l, P c) ∧
    (wwHard w [] ws [] word).2.2 =
      visible_width (wwHard w [] ws [] word).2.1 ∧
    (((wwHard w [] ws [] word).2.2 : Int) ≤ w) ∧
    (∀ c ∈ (wwHard w [] ws [] word).2.1, P c) := by
  have hwesc : escChar ∉ word := fun hm => hP2 escChar (hword escChar hm) rfl
  have hwu : ∀ c ∈ word, char_width c = 1 := fun c hc => hP1 c (hword c hc)
  have hchars : ∀ q ∈ hard_break word w, ∀ x ∈ q, P x := by
    intro q hq x hx
    rcases hbGo_chars word.length w [] 0 word q hq x hx with h | h
    · cases h
    · exact hword x h
  have hlen : ∀ q ∈ hard_break word w, ((q.length : Int) ≤ w) :=
    fun q hq => hbGo_len word.length w [] word hw (by simp; omega) hwesc hwu q hq
  have hvwq : ∀ q ∈ hard_break word w,
      visible_width q = q.length ∧ ((visible_width q : Int) ≤ w) := by
    intro q hq
    have hqe : escChar ∉ q := fun hm => hP2 escChar (hchars q hq escChar hm) rfl
    have hqu : ∀ x ∈ q, char_width x = 1 :=
      fun x hx => hP1 x (hchars q hq x hx)
    have hv := vw_unit hqe hqu
    exact ⟨hv, by rw [hv]; exact hlen q hq⟩
  cases hpieces : hard_break word w with
  | nil =>
    simp only [wwHard, hpieces, runPieces, List.getLast?_nil]
    exact ⟨hws, rfl, by omega, fun c hc => absurd hc (List.not_mem_nil c)⟩
  | cons p ps =>
    have hspec := pieceFold_spec ps p ws
    have hmem1 : ∀ l ∈ (pieceFold [] ps p ws).1,
        (visible_width l : Int) ≤ w ∧ ∀ c ∈ l, P c := by
      intro l hl
      rw [hspec.1] at hl
      rcases List.mem_append.mp hl with hl | hl
      · exact hws l hl
      · have hlp : l ∈ hard_break word w := by
          rw [hpieces]
          exact mem_dropLast_mem _ l hl
        exact ⟨(hvwq l hlp).2, hchars l hlp⟩
    have hr2 : (pieceFold [] ps p ws).2 ∈ hard_break word w := by
      rw [hpieces]
      exact getLast_some_mem _ _ hspec.2.symm
    simp only [wwHard, hpieces, runPieces, List.nil_append, ← hspec.2]
    by_cases hsp : (strip_ansi (pieceFold [] ps p ws).2).all isPySpace = true
    · rw [if_pos hsp]
      exact ⟨hmem1, rfl, by simp; omega, fun c hc => absurd hc (List.not_mem_nil c)⟩
    · rw [if_neg hsp]
      exact ⟨hmem1, rfl, (hvwq _ hr2).2, fun c hc => hchars _ hr2 c hc⟩

/-- One word-loop iteration preserves the invariant. -/
lemma wwStep_inv (w : Int) (hw : 1 ≤ w) (P : Char → Prop)
    (hP1 : ∀ c, P c → char_width c = 1) (hP2 : ∀ c, P c → c ≠ escChar)
    (st : WwState) (hst : wwInv w P st) (word : List Char)
    (hword : ∀ c ∈ word, P c) : wwInv w P (wwStep w st word) := by
  obtain ⟨ws, cl, cw, act⟩ := st
  have h1 : ∀ l ∈ ws, (visible_width l : Int) ≤ w ∧ ∀ c ∈ l, P c := hst.1
  have h2 : cw = visible_width cl := hst.2.1
  have h3 : (cw : Int) ≤ w := hst.2.2.1
  have h4 : ∀ c ∈ cl, P c := hst.2.2.2.1
  have h5 : act = [] := hst.2.2.2.2
  subst h5
  have hwesc : escChar ∉ word := fun hm => hP2 escChar (hword escChar hm) rfl
  have hclesc : escChar ∉ cl := fun hm => hP2 escChar (h4 escChar hm) rfl
  have hclu : ∀ c ∈ cl, char_width c = 1 := fun c hc => hP1 c (h4 c hc)
  have hupd : updateActive [] word = [] := updateActive_no_esc hwesc
  by_cases h0 : cw = 0
  · have hcl : cl = [] := by
      have hv := vw_unit hclesc hclu
      have hlen0 : cl.length = 0 := by omega
      exact List.length_eq_zero.mp hlen0
    subst hcl
    subst h0
    simp only [wwStep, List.flatten_nil]
    rw [if_true]
    by_cases hbig : (visible_width word : Int) > w
    · rw [if_pos hbig]
      obtain ⟨g1, g2, g3, g4⟩ := wwHard_inv w hw P hP1 hP2 ws h1 word hword
      exact ⟨g1, g2, g3, g4, hupd⟩
    · rw [if_neg hbig]
      refine ⟨h1, ?_, by show (visible_width word : Int) ≤ w; omega, ?_, hupd⟩
      · rw [List.nil_append]
      · intro c hc
        rw [List.nil_append] at hc
        exact hword c hc
  · simp only [wwStep, List.flatten_nil]
    rw [if_neg h0]
    by_cases hfit : (cw : Int) + (visible_width word : Int) ≤ w
    · rw [if_pos hfit]
      refine ⟨h1, ?_, ?_, ?_, hupd⟩
      · rw [vw_append_no_esc cl word hclesc, h2]
      · push_cast
        omega
      · intro c hc
        rcases List.mem_append.mp hc with hc | hc
        · exact h4 c hc
        · exact hword c hc
    · rw [if_neg hfit]
      have hmem : ∀ l ∈ ws ++ [cl],
          (visible_width l : Int) ≤ w ∧ ∀ c ∈ l, P c := by
        intro l hl
        rcases List.mem_append.mp hl with hl | hl
        · exact h1 l hl
        · rcases List.mem_singleton.mp hl with rfl
          exact ⟨by rw [← h2]; exact h3, h4⟩
      by_cases hbig : (visible_width word : Int) > w
      · rw [if_pos hbig]
        obtain ⟨g1, g2, g3, g4⟩ :=
          wwHard_inv w hw P hP1 hP2 (ws ++ [cl]) hmem word hword
        exact ⟨g1, g2, g3, g4, hupd⟩
      · rw [if_neg hbig]
        refine ⟨hmem, ?_, ?_, ?_, hupd⟩
        · rw [List.nil_append]
        · have hde : escChar ∉ word.dropWhile (· = ' ') :=
            fun hm => hwesc (mem_dropWhile_mem _ word escChar hm)
          have hdu : ∀ x ∈ word.dropWhile (· = ' '), char_width x = 1 :=
            fun x hx => hP1 x (hword x (mem_dropWhile_mem _ word x hx))
          have hdvw := vw_unit hde hdu
          have hwvw := vw_unit hwesc (fun c hc => hP1 c (hword c hc))
          have hdl : (word.dropWhile (· = ' ')).length ≤ word.length :=
            (List.dropWhile_sublist _).length_le
          show (visible_width (word.dropWhile (· = ' ')) : Int) ≤ w
          rw [hdvw]
          rw [hwvw] at hbig
          omega
        · intro c hc
          rw [List.nil_append] at hc
          exact hword c (mem_dropWhile_mem _ word c hc)

/-- The whole word loop preserves the invariant. -/
lemma wwFold_inv (w : Int) (hw : 1 ≤ w) (P : Char → Prop)
    (hP1 : ∀ c, P c → char_width c = 1) (hP2 : ∀ c, P c → c ≠ escChar) :
    ∀ (words : List (List Char)) (st : WwState),
    (∀ wd ∈ words, ∀ c ∈ wd, P c) → wwInv w P st →
    wwInv w P (words.foldl (wwStep w) st) := by
  intro words
  induction words with
  | nil => intro st _ hst; exact hst
  | cons wd rest ih =>
    intro st hwords hst
    exact ih (wwStep w st wd)
      (fun x hx c hc => hwords x (List.mem_cons_of_mem wd hx) c hc)
      (wwStep_inv w hw P hP1 hP2 st hst wd
        (hwords wd (List.mem_cons_self wd rest)))

/-- Every output line of word_wrap_line fits in the width and draws its
characters from the input line, provided the input is ESC-free with
unit-width characters. -/
lemma word_wrap_line_bound (w : Int) (hw : 1 ≤ w) (line : List Char)
    (hesc : escChar ∉ line) (hu : ∀ c ∈ line, char_width c = 1) :
    ∀ l ∈ word_wrap_line w line,
    (visible_width l : Int) ≤ w ∧ ∀ c ∈ l, c ∈ line := by
  intro l hl
  simp only [word_wrap_line] at hl
  by_cases hfit : (visible_width line : Int) ≤ w
  · rw [if_pos hfit] at hl
    rcases List.mem_singleton.mp hl with rfl
    exact ⟨hfit, fun c hc => hc⟩
  · rw [if_neg hfit] at hl
    have hP2 : ∀ c, c ∈ line → c ≠ escChar :=
      fun c hc he => hesc (he ▸ hc)
    have hwords : ∀ wd ∈ split_words_ansi line, ∀ c ∈ wd, c ∈ line := by
      intro wd hwd c hc
      rcases swGo_chars line.length [] line wd hwd c hc with h | h
      · cases h
      · exact h
    have hinv := wwFold_inv w hw (fun c => c ∈ line) hu hP2
      (split_words_ansi line) ⟨[], [], 0, []⟩ hwords
      ⟨fun x hx => absurd hx (List.not_mem_nil x), rfl,
        by show ((0 : Nat) : Int) ≤ w; omega,
        fun c hc => absurd hc (List.not_mem_nil c), rfl⟩
    rcases List.mem_append.mp hl with hl | hl
    · exact hinv.1 l hl
    · by_cases hemp :
        ((split_words_ansi line).foldl (wwStep w) ⟨[], [], 0, []⟩).cl.isEmpty
      · rw [if_pos hemp] at hl
        cases hl
      · rw [if_neg hemp] at hl
        rcases List.mem_singleton.mp hl with rfl
        exact ⟨by rw [← hinv.2.1]; exact hinv.2.2.1, hinv.2.2.2.1⟩

end WordWrapProofs

/-- C10: for every width w ≥ 1 and every input string containing no escape
character and only characters of visible width 1, every line of
word_wrap(s, w) has visible width at most w. -/
theorem C10_word_wrap_width_bound (s : List Char) (w : Int) (hw : 1 ≤ w)
    (hesc : escChar ∉ s) (hu : ∀ c ∈ s, char_width c = 1) :
    ∀ l ∈ splitNl (word_wrap s w), (visible_width l : Int) ≤ w := by
  unfold word_wrap
  rw [if_neg (by omega : ¬w ≤ 0)]
  have hFL : ∀ l ∈ ((splitNl s).map (word_wrap_line w)).flatten,
      (visible_width l : Int) ≤ w ∧ '\n' ∉ l := by
    intro l hl
    rcases List.mem_flatten.mp hl with ⟨blk, hblk, hlb⟩
    rcases List.mem_map.mp hblk with ⟨line, hline, rfl⟩
    have hlesc : escChar ∉ line :=
      fun hm => hesc (mem_splitNl_chars s line hline escChar hm)
    have hlu : ∀ c ∈ line, char_width c = 1 :=
      fun c hc => hu c (mem_splitNl_chars s line hline c hc)
    have hb := word_wrap_line_bound w hw line hlesc hlu l hlb
    exact ⟨hb.1, fun hnl => splitNl_no_nl s line hline (hb.2 '\n' hnl)⟩
  cases hFLe : ((splitNl s).map (word_wrap_line w)).flatten with
  | nil =>
    intro l hl
    have hempty : splitNl (joinNl ([] : List (List Char))) = [[]] := rfl
    rw [hempty] at hl
    rcases List.mem_singleton.mp hl with rfl
    have h0 : visible_width ([] : List Char) = 0 := rfl
    rw [h0]
    omega
  | cons a as =>
    rw [splitNl_joinNl (a :: as) (List.cons_ne_nil a as)
      (fun l hl => (hFL l (hFLe.symm ▸ hl)).2)]
    intro l hl
    exact (hFL l (hFLe.symm ▸ hl)).1

/-- Witness for C10 at a concrete input: wrapping the plain text
"hello world wide" at width 5 produces the line "hello", of visible width at
most 5. -/
theorem C10_word_wrap_width_bound_witness :
    (visible_width (String.toList "hello") : Int) ≤ 5 :=
  C10_word_wrap_width_bound (String.toList "hello world wide") 5 (by decide)
    (by decide) (by decide) (String.toList "hello") (by decide)


/-- Counterexample for C5 as stated: a bordered style with margin 1 renders
a block whose first line (a blank top-margin line, width 0) and second line
(the top border shifted by the side margins, width 6) have different visible
widths, so not every line of a bordered render has identical visible
width. -/
theorem C5_counterexample_margin_breaks_uniform_width :
    (splitNl (((emptyStyle.border ROUNDED_BORDER).margin 1).render
        (String.toList "hi"))).getD 0 [] ∈
      splitNl (((emptyStyle.border ROUNDED_BORDER).margin 1).render
        (String.toList "hi")) ∧
    (splitNl (((emptyStyle.border ROUNDED_BORDER).margin 1).render
        (String.toList "hi"))).getD 1 [] ∈
      splitNl (((emptyStyle.border ROUNDED_BORDER).margin 1).render
        (String.toList "hi")) ∧
    visible_width ((splitNl (((emptyStyle.border ROUNDED_BORDER).margin 1).render
        (String.toList "hi"))).getD 0 []) ≠
      visible_width ((splitNl (((emptyStyle.border ROUNDED_BORDER).margin 1).render
        (String.toList "hi"))).getD 1 []) := by
  refine ⟨by decide, by decide, by decide⟩

/-- C5 (amended): for every Style with a border from a plain single-column
glyph set (as all five named sets are), no top or bottom margin and no
max-width cap, every line of render(content) — including the top and bottom
border lines — has identical visible width. -/
theorem C5_bordered_lines_uniform_width (s : Style) (b : Border)
    (content : List Char) (hb : s.border_ = some b)
    (hpb : plain_border b = true) (hmt : s.margin_top_ ≤ 0)
    (hmb : s.margin_bottom_ ≤ 0) (hmw : s.max_width_ ≤ 0) :
    ∀ l1 ∈ splitNl (s.render content), ∀ l2 ∈ splitNl (s.render content),
      visible_width l1 = visible_width l2 := by
  have hmt' : ¬s.margin_top_ > 0 := by omega
  have hmb' : ¬s.margin_bottom_ > 0 := by omega
  have hmw' : ¬s.max_width_ > 0 := by omega
  have hrl := renderLines_no_maxw s content hmw'
  have hM := renderCore_no_nl s content
  have hBw := apply_border_width hb hpb (renderCore s content)
  have hBnl := apply_border_no_nl hb hpb _ hM
  obtain ⟨w', hW⟩ := apply_margin_uniform s hmt' hmb' _ _ hBw
  have hFLnl := apply_margin_no_nl s _ hBnl
  unfold Style.render
  rw [hrl]
  cases hFL : apply_margin s (apply_border s (renderCore s content)) with
  | nil =>
    intro l1 h1 l2 h2
    have e : splitNl (joinNl ([] : List (List Char))) = [[]] := rfl
    rw [e] at h1 h2
    rw [List.mem_singleton.mp h1, List.mem_singleton.mp h2]
  | cons a as =>
    rw [splitNl_joinNl (a :: as) (by simp) (hFL ▸ hFLnl)]
    intro l1 h1 l2 h2
    rw [hW l1 (hFL ▸ h1), hW l2 (hFL ▸ h2)]

/-- Witness for the amended C5 on the rounded bordered style of the spec's
end-to-end example: the top border line and the bottom border line of the
rendered block have the same visible width. -/
theorem C5_bordered_lines_uniform_width_witness :
    visible_width ((splitNl ((emptyStyle.border ROUNDED_BORDER).render
        (String.toList "hi"))).getD 0 []) =
      visible_width ((splitNl ((emptyStyle.border ROUNDED_BORDER).render
        (String.toList "hi"))).getD 2 []) := by
  exact C5_bordered_lines_uniform_width (emptyStyle.border ROUNDED_BORDER)
    ROUNDED_BORDER (String.toList "hi") rfl (by decide) (by decide)
    (by decide) (by decide) _ (by decide) _ (by decide)

/-- C8: for all strings a and b such that no escape sequence is split across
the concatenation boundary (the regex scan inside `a` is unaffected by
appending `b`), visible_width(a + b) = visible_width(a) + visible_width(b). -/
theorem C8_visible_width_additive (a b : List Char) (h : split_free a b) :
    visible_width (a ++ b) = visible_width a + visible_width b := by
  rw [visible_width_eq_sum, visible_width_eq_sum, visible_width_eq_sum,
    strip_ansi_append a.length a b (Nat.le_refl _) h, List.map_append,
    List.sum_append]

/-- Witness for C8: a bold-opening fragment and a reset-carrying fragment,
neither splitting an escape sequence across the boundary. -/
theorem C8_visible_width_additive_witness :
    split_free (String.toList "A\x1b[1m") (String.toList "B\x1b[0m") ∧
    visible_width (String.toList "A\x1b[1m" ++ String.toList "B\x1b[0m") =
      visible_width (String.toList "A\x1b[1m") +
        visible_width (String.toList "B\x1b[0m") := by
  refine ⟨by unfold split_free; decide,
    C8_visible_width_additive _ _ (by unfold split_free; decide)⟩

section RendererProofs

/-- A frame never exceeds the terminal height. -/
lemma frameLines_le (out : List Char) (h : Nat) :
    (frameLines out h).length ≤ h := by
  unfold frameLines
  by_cases hc : (splitNl out).length > h
  · rw [if_pos hc]
    simp [List.length_take]
  · rw [if_neg hc]
    omega

/-- The state after any render: the new frame is retained and the repaint
flag is cleared. -/
lemma render_fst (st : RState) (out : List Char) (w : Int) (h : Nat) :
    (render st out w h).1 = ⟨frameLines out h, false⟩ := rfl

/-- The line loop on an unchanged line with no repaint pending only moves the
cursor. -/
lemma renderBody_same (w : Int) (maxL : Nat) (ls : List (List Char)) (i : Nat)
    (hi : i < ls.length) :
    renderBody false w maxL ls ls i =
      if i < maxL - 1 then [OutTok.crlf] else [] := by
  have h2 : ls[i]? = some ls[i] := List.getElem?_eq_getElem hi
  have h1 : ls.get? i = some (ls.getD i []) := by
    rw [List.get?_eq_getElem?, h2, List.getD_eq_getElem?_getD, h2]
    rfl
  simp only [renderBody]
  rw [if_pos ⟨trivial, h1⟩]

/-- The line loop under a pending repaint always rewrites the line. -/
lemma renderBody_repaint (w : Int) (maxL : Nat)
    (new old : List (List Char)) (i : Nat) :
    renderBody true w maxL new old i =
      [OutTok.text (truncate (new.getD i []) w), OutTok.eraseLineRight] ++
        (if i < maxL - 1 then [OutTok.crlf] else []) := by
  simp only [renderBody]
  rw [if_neg]
  rintro ⟨hcontra, -⟩
  exact absurd hcontra (by simp)

/-- The only line content a repainting loop body writes is the truncated
line. -/
lemma textsOf_renderBody_repaint (w : Int) (maxL : Nat)
    (new old : List (List Char)) (i : Nat) :
    textsOf (renderBody true w maxL new old i) =
      [truncate (new.getD i []) w] := by
  rw [renderBody_repaint]
  by_cases hi : i < maxL - 1 <;> simp [textsOf, hi]

/-- Flattening singleton blocks is a map. -/
lemma flatten_singletons {α β : Type} (g : α → β) (L : List α) :
    (L.map (fun x => [g x])).flatten = L.map g := by
  induction L with
  | nil => rfl
  | cons a L ih => simp [ih]

/-- Reading every position of a list through getD over its index range is a
map. -/
lemma map_range_getD {α β : Type} (l : List α) (d : α) (g : α → β) :
    (List.range l.length).map (fun i => g (l.getD i d)) = l.map g := by
  induction l with
  | nil => rfl
  | cons a l ih =>
    rw [List.length_cons, List.range_succ_eq_map]
    simp only [List.map_cons, List.map_map, Function.comp_def,
      List.getD_cons_zero, List.getD_cons_succ]
    rw [ih]

end RendererProofs

/-- C3: rendering the same output twice in a row through the diff Renderer
(same width and height, no repaint in between) emits only cursor movement on
the second call — every token of the second call is the sync bracket, the
cursor-home or a cursor advance, so no line content and no erase sequence is
written; if repaint() is invoked between the calls, the second call rewrites
every frame line exactly once (the written line contents are exactly the
width-truncated frame lines, in order) and the repaint flag auto-clears. -/
theorem C3_diff_renderer_second_render (st : RState) (out : List Char)
    (w : Int) (h : Nat) :
    (∀ t ∈ (render (render st out w h).1 out w h).2,
      t = OutTok.syncBegin ∨ t = OutTok.cursorHome ∨ t = OutTok.crlf ∨
        t = OutTok.syncEnd) ∧
    textsOf (render (repaint (render st out w h).1) out w h).2 =
      (frameLines out h).map (fun l => truncate l w) ∧
    (render (repaint (render st out w h).1) out w h).1.repaintFlag = false := by
  have hle : (frameLines out h).length ≤ h := frameLines_le out h
  have hmin : min (max (frameLines out h).length (frameLines out h).length) h
      = (frameLines out h).length := by
    rw [Nat.max_self]
    exact Nat.min_eq_left hle
  refine ⟨?_, ?_, rfl⟩
  · intro t ht
    rw [render_fst st out w h] at ht
    simp only [render, gt_iff_lt, lt_irrefl, if_false, List.append_nil,
      List.cons_append, List.nil_append, List.mem_cons, List.mem_append,
      List.mem_singleton] at ht
    rcases ht with h1 | h1 | h1 | h1
    · exact Or.inl h1
    · exact Or.inr (Or.inl h1)
    · rcases List.mem_flatten.mp h1 with ⟨blk, hblk, htb⟩
      rcases List.mem_map.mp hblk with ⟨i, hi, rfl⟩
      rw [hmin] at hi
      rw [renderBody_same w _ _ i (List.mem_range.mp hi)] at htb
      by_cases hlast : i < max (frameLines out h).length
          (frameLines out h).length - 1
      · rw [if_pos hlast] at htb
        exact Or.inr (Or.inr (Or.inl (List.mem_singleton.mp htb)))
      · rw [if_neg hlast] at htb
        cases htb
    · rcases h1 with h1 | h1
      · exact Or.inr (Or.inr (Or.inr h1))
      · cases h1
  · rw [render_fst st out w h]
    simp only [repaint, render]
    simp only [gt_iff_lt, lt_irrefl, if_false, List.append_nil]
    rw [textsOf, List.filterMap_append, List.filterMap_append]
    simp only [List.filterMap_cons, List.filterMap_nil]
    rw [hmin]
    have hbody : (List.filterMap (fun t =>
        match t with
        | OutTok.text s => some s
        | _ => none)
        ((List.range (frameLines out h).length).map
          (renderBody true w
            (max (frameLines out h).length (frameLines out h).length)
            (frameLines out h) (frameLines out h))).flatten) =
        (frameLines out h).map (fun l => truncate l w) := by
      rw [List.filterMap_flatten]
      rw [List.map_map]
      have heach : ∀ i,
          (List.filterMap (fun t =>
            match t with
            | OutTok.text s => some s
            | _ => none) ∘
            renderBody true w
              (max (frameLines out h).length (frameLines out h).length)
              (frameLines out h) (frameLines out h)) i =
          [truncate ((frameLines out h).getD i []) w] := by
        intro i
        exact textsOf_renderBody_repaint w _ _ _ i
      rw [List.map_congr_left (fun i _ => heach i)]
      rw [flatten_singletons (fun i => truncate ((frameLines out h).getD i []) w)
        (List.range (frameLines out h).length)]
      exact map_range_getD (frameLines out h) [] (fun l => truncate l w)
    simpa using hbody

/-- Counterexample for C7 as stated: the "unknown" event produced for
malformed UTF-8 does not carry the raw bytes — the distinct two-byte streams
C2 41 and C2 42 (both consumed by the decoder) produce the identical event
unknown(194), which therefore cannot carry the consumed continuation byte. -/
theorem C7_counterexample_unknown_drops_bytes :
    read_key [0xC2, 0x41] = .ok (some ⟨"unknown(194)", ""⟩) ∧
    read_key [0xC2, 0x42] = .ok (some ⟨"unknown(194)", ""⟩) ∧
    read_key [0xC2, 0x41] = read_key [0xC2, 0x42] := by
  exact ⟨rfl, rfl, rfl⟩

/-- C7 (amended): decoding never raises — for every input byte stream
read_key returns a key event or None rather than propagating an exception;
malformed UTF-8 resolves to an "unknown" event carrying the lead byte (the
consumed continuation bytes are not included), and unrecognized escape
sequences resolve to an "unknown" event carrying the full raw sequence. -/
theorem C7_decode_never_raises :
    (∀ bs : List Nat, ∃ r, read_key bs = .ok r) ∧
    read_key [0xC2, 0x41] = .ok (some ⟨"unknown(194)", ""⟩) ∧
    read_key [0xFF] = .ok (some ⟨"unknown(255)", ""⟩) ∧
    read_key [0x1b, 0x5b, 0x7a] = .ok (some ⟨"unknown(b'\\x1b[z')", ""⟩) := by
  refine ⟨?_, rfl, rfl, rfl⟩
  intro bs
  cases bs with
  | nil => exact ⟨none, rfl⟩
  | cons b rest =>
    simp only [read_key]
    by_cases h27 : b = 27
    · exact ⟨some (read_escape_sequence rest), by simp [h27]⟩
    · simp only [if_neg h27]
      cases hctrl : ctrlName b with
      | some nm => exact ⟨some ⟨nm, ""⟩, rfl⟩
      | none =>
        cases hread : read_utf8 b rest with
        | ok ch =>
          by_cases hsp : ch = ' '
          · exact ⟨some ⟨"space", " "⟩, by simp [hsp]⟩
          · exact ⟨some ⟨String.singleton ch, String.singleton ch⟩,
              by simp [hsp]⟩
        | error e =>
          cases e with
          | valueError =>
            exact ⟨some ⟨"unknown(" ++ natStr b ++ ")", ""⟩, by simp [pyCaught]⟩
          | unicodeDecodeError =>
            exact ⟨some ⟨"unknown(" ++ natStr b ++ ")", ""⟩, by simp [pyCaught]⟩

/-- Witness for C2 at concrete inputs: a retained key "k" that disappears is
stopped exactly once; a key declared at both of two reconciliations is
started exactly once from an inactive start and not at all from an active
start. -/
theorem C2_subscription_reconciliation_witness :
    countStop "k" (sync_subs ["k"] []).2 = 1 ∧
    countStart "k" (sync_subs_run [] [["k"], ["k"]]).2 = 1 ∧
    countStart "k" (sync_subs_run ["k"] [["k"]]).2 = 0 := by
  refine ⟨C2_subscription_reconciliation.2.1 ["k"] [] "k" (by decide)
      (by decide) (by decide),
    C2_subscription_reconciliation.2.2.2.2 [] ["k"] [["k"]] "k" (by decide)
      (by decide),
    C2_subscription_reconciliation.2.2.2.1 ["k"] [["k"]] "k" (by decide)
      (by decide)⟩

/-- C4: Style().border(ROUNDED).width(10).render("hi") yields exactly a
3-line block; the first and last lines are 10 columns of visible width,
rounded corners around 8 horizontal-border glyphs; the middle line is the
vertical border glyph, "hi", 6 spaces and the vertical border glyph. -/
theorem C4_bordered_render_endtoend :
    splitNl (((emptyStyle.border ROUNDED_BORDER).width 10).render
        (String.toList "hi")) =
      [['╭'] ++ List.replicate 8 '─' ++ ['╮'],
       ['│'] ++ String.toList "hi" ++ List.replicate 6 ' ' ++ ['│'],
       ['╰'] ++ List.replicate 8 '─' ++ ['╯']] ∧
    visible_width (['╭'] ++ List.replicate 8 '─' ++ ['╮']) = 10 ∧
    visible_width (['│'] ++ String.toList "hi" ++ List.replicate 6 ' ' ++
      ['│']) = 10 ∧
    visible_width (['╰'] ++ List.replicate 8 '─' ++ ['╯']) = 10 := by
  refine ⟨by decide, by decide, by decide, by decide⟩

end Snaptui
